import Mathlib

/-!
Shallow embedding of the block-management core of `src/src/allocator.c`
(a fixed-capacity heap allocator over a 640000-byte arena).

Modelling conventions, fixed once for the whole development:

* Pointers into the arena are byte offsets from the arena base (`heap` is
  16-aligned, so offset alignment coincides with pointer alignment); the C
  null pointer is `Option.none`.
* The intrusive header chain is a `List BlockHeader` in `next` order; each
  element carries the header's offset (`addr`), its `size` field and its
  `free` flag.  The `next` field of the C struct is represented by list
  adjacency: the successor of element `i` is element `i+1`, and the last
  element's `next` is null.  Every operation of the source only ever points
  `next` at a newly written header or at an existing successor, which is
  exactly what the list operations below do.
* `size_t` arithmetic is arithmetic modulo `W = 2^64`; values are kept as
  `Nat` below `W` and every C expression that can wrap carries an explicit
  `% W` (or uses `sub64`).
* Arena bytes are `mem : Nat → Nat`.  Whenever the C code stores header
  fields at an offset `a`, the model overwrites the bytes `[a, a+24)` with
  zeros (`writeHeader`); header bytes are opaque in the model, so the only
  facts provable about them is that they changed, which is conservative for
  payload-preservation statements.  `memcpy` is modelled exactly.
* Reads through a pointer that is not the payload address of a chain header
  would read bytes the model does not represent; those branches return the
  state unchanged and are marked `outside the model`.  All theorems below
  restrict such pointer arguments by hypothesis, and all concrete runs use
  genuine payload addresses.
-/

/-- `HEAP_CAPACITY` from `include/allocator.h`. -/
def HEAP_CAPACITY : Nat := 640000

/-- `ALIGNMENT` from `include/allocator.h`. -/
def ALIGNMENT : Nat := 16

/-- `sizeof(BlockHeader)` on the reference 64-bit platform (8-byte `size_t`,
padded `bool`, 8-byte pointer): 24 bytes, the value the spec fixes in §8. -/
def headerSize : Nat := 24

/-- The modulus of `size_t` arithmetic on the reference platform. -/
def W : Nat := 2 ^ 64

/-- `SIZE_MAX`, the sentinel used by `find_fit_best`. -/
def SIZE_MAX : Nat := 2 ^ 64 - 1

/-- Wrapping `size_t` subtraction: for `a b < W` this is `(a - b) mod W`. -/
def sub64 (a b : Nat) : Nat := (a + W - b) % W

/-- `AllocatorStatus` from `include/allocator.h`. -/
inductive AllocatorStatus where
  | ALLOC_SUCCESS
  | ALLOC_ERROR
  | ALLOC_OUT_OF_MEMORY
  | ALLOC_INVALID_FREE
  | ALLOC_ALIGNMENT_ERROR
  | ALLOC_INVALID_OPERATION
  | ALLOC_HEAP_ERROR
  | ALLOC_HEAP_OK
deriving DecidableEq, Repr

/-- `AllocationStrategy` from `include/allocator.h`. -/
inductive AllocationStrategy where
  | FIRST_FIT
  | BEST_FIT
  | WORST_FIT
deriving DecidableEq, Repr

/-- One header of the intrusive chain (`struct BlockHeader`).  `addr` is the
offset of the header from the arena base; the `next` pointer is represented
by the position in the chain list. -/
structure BlockHeader where
  addr : Nat
  size : Nat
  free : Bool
deriving DecidableEq, Repr

/-- The process-wide allocator state: the chain rooted at `first_block`, the
water-mark `heap_size`, the strategy selector, the most recent status and
the arena bytes. -/
structure AllocState where
  chain : List BlockHeader
  heap_size : Nat
  current_strategy : AllocationStrategy
  last_status : AllocatorStatus
  mem : Nat → Nat

/-- The initial allocator state: empty chain, zero water-mark, first-fit
strategy, `ALLOC_SUCCESS`, zeroed arena. -/
def initState : AllocState :=
  { chain := [], heap_size := 0, current_strategy := .FIRST_FIT,
    last_status := .ALLOC_SUCCESS, mem := fun _ => 0 }

/-- Overwrite the `headerSize` bytes starting at `a` (a header store). -/
def writeHeader (m : Nat → Nat) (a : Nat) : Nat → Nat :=
  fun i => if a ≤ i ∧ i < a + headerSize then 0 else m i

/-- Overwrite the 8 bytes of a stored `size` field at offset `a` (the partial
write performed by `split_block` before its second size check). -/
def writeSizeField (m : Nat → Nat) (a : Nat) : Nat → Nat :=
  fun i => if a ≤ i ∧ i < a + 8 then 0 else m i

/-- `memcpy(dst, src, len)` on the arena bytes. -/
def memcpy (m : Nat → Nat) (dst src len : Nat) : Nat → Nat :=
  fun i => if dst ≤ i ∧ i < dst + len then m (src + (i - dst)) else m i

/-- `set_last_status` from `src/src/allocator.c:572`. -/
def set_last_status (s : AllocState) (status : AllocatorStatus) : AllocState :=
  { s with last_status := status }

/-- `set_allocation_strategy` from `src/src/allocator.c:585`. -/
def set_allocation_strategy (s : AllocState) (strategy : AllocationStrategy) : AllocState :=
  { s with current_strategy := strategy }

/-- `align` from `src/src/allocator.c:40`: round up to the next multiple of
`ALIGNMENT` in `size_t` arithmetic (the C addition wraps at `W`). -/
def align (alloc_size : Nat) : Nat :=
  if alloc_size % ALIGNMENT ≠ 0 then (alloc_size + (ALIGNMENT - alloc_size % ALIGNMENT)) % W
  else alloc_size

/-- `validate_pointer` from `src/src/allocator.c:533`: true iff the pointer
lies in `[heap, heap + heap_size)`.  The C null pointer is below the arena
base, so it is rejected; a non-null pointer is an offset `p ≥ 0`, so only the
upper bound remains.  The function only reads state; the returned state is
the input state. -/
def validate_pointer (s : AllocState) (ptr : Option Nat) : Bool × AllocState :=
  match ptr with
  | none => (false, s)
  | some p => (decide (p < s.heap_size), s)

/-- Forward coalescing loop of `coalesce_blocks` (`src/src/allocator.c:61`):
absorb consecutive free successors into `b`, accumulating their sizes in
`size_t` arithmetic. -/
def coalesceForward (b : BlockHeader) : List BlockHeader → BlockHeader × List BlockHeader
  | [] => (b, [])
  | n :: rest =>
    if n.free then coalesceForward { b with size := (b.size + n.size) % W } rest
    else (b, n :: rest)

/-- `coalesce_blocks` from `src/src/allocator.c:57`, acting on the chain
element at position `i` (the C code receives the header pointer; the
backward scan from `first_block` locates the predecessor, which is the
previous list element).  Forward absorption happens first, then a single
backward absorption into a free predecessor. -/
def coalesce_blocks (chain : List BlockHeader) (i : Nat) : List BlockHeader :=
  match chain.get? i with
  | none => chain
  | some b =>
    let fwd := coalesceForward b (chain.drop (i + 1))
    let front := chain.take i
    match front.getLast? with
    | some prev =>
      if prev.free then
        front.dropLast ++ { prev with size := (prev.size + fwd.1.size) % W } :: fwd.2
      else front ++ fwd.1 :: fwd.2
    | none => front ++ fwd.1 :: fwd.2

/-- `split_block` from `src/src/allocator.c:99`.  The block argument is the
position of the header in the chain (`none` models a NULL argument).  On
success the candidate is shrunk to `align total_size`, marked used, and a
new free header is written at `addr + align total_size`; the success path
sets no status.  The branch that fails the second size check has already
stored the new header's `size` field, which the model records with
`writeSizeField`. -/
def split_block (s : AllocState) (block_ptr : Option Nat) (total_size : Nat) :
    Option Nat × AllocState :=
  match block_ptr with
  | none => (none, set_last_status s .ALLOC_INVALID_OPERATION)
  | some i =>
    match s.chain.get? i with
    | none => (none, s)
    | some b =>
      let aligned_size := align total_size
      if b.size < (aligned_size + headerSize + ALIGNMENT) % W then
        (none, set_last_status s .ALLOC_ERROR)
      else
        let secondSize := sub64 b.size aligned_size
        if secondSize ≤ headerSize then
          (none, set_last_status
            { s with mem := writeSizeField s.mem (b.addr + aligned_size) } .ALLOC_ERROR)
        else
          (some (b.addr + headerSize),
           { s with
             chain := s.chain.take i ++
               { addr := b.addr, size := aligned_size, free := false } ::
               { addr := b.addr + aligned_size, size := secondSize, free := true } ::
                 s.chain.drop (i + 1),
             mem := writeHeader (writeHeader s.mem b.addr) (b.addr + aligned_size) })

/-- Loop of `find_fit_first` (`src/src/allocator.c:152`), returning the
position of the first free block of sufficient size. -/
def findFirstAux (r : Nat) : List BlockHeader → Nat → Option Nat
  | [], _ => none
  | b :: rest, k =>
    if b.free = true ∧ r ≤ b.size then some k else findFirstAux r rest (k + 1)

/-- `find_fit_first` from `src/src/allocator.c:152`. -/
def find_fit_first (s : AllocState) (requested_size : Nat) : Option Nat × AllocState :=
  match findFirstAux requested_size s.chain 0 with
  | some i => (some i, set_last_status s .ALLOC_SUCCESS)
  | none => (none, set_last_status s .ALLOC_OUT_OF_MEMORY)

/-- Loop of `find_fit_best` (`src/src/allocator.c:182`): scan with the
running best position and running best size, which starts at `SIZE_MAX`. -/
def findBestAux (r : Nat) : List BlockHeader → Nat → Option Nat → Nat → Option Nat
  | [], _, best, _ => best
  | b :: rest, k, best, best_size =>
    if b.free = true ∧ r ≤ b.size ∧ b.size < best_size then
      findBestAux r rest (k + 1) (some k) b.size
    else
      findBestAux r rest (k + 1) best best_size

/-- `find_fit_best` from `src/src/allocator.c:176`. -/
def find_fit_best (s : AllocState) (requested_size : Nat) : Option Nat × AllocState :=
  match findBestAux requested_size s.chain 0 none SIZE_MAX with
  | some i => (some i, set_last_status s .ALLOC_SUCCESS)
  | none => (none, set_last_status s .ALLOC_OUT_OF_MEMORY)

/-- Loop of `find_fit_worst` (`src/src/allocator.c:224`): scan with the
running worst position and its size, replacing only on strict increase. -/
def findWorstAux (r : Nat) : List BlockHeader → Nat → Option (Nat × Nat) → Option (Nat × Nat)
  | [], _, worst => worst
  | b :: rest, k, worst =>
    if b.free = true ∧ r ≤ b.size then
      match worst with
      | none => findWorstAux r rest (k + 1) (some (k, b.size))
      | some (wi, ws) =>
        if ws < b.size then findWorstAux r rest (k + 1) (some (k, b.size))
        else findWorstAux r rest (k + 1) (some (wi, ws))
    else findWorstAux r rest (k + 1) worst

/-- `find_fit_worst` from `src/src/allocator.c:220`. -/
def find_fit_worst (s : AllocState) (requested_size : Nat) : Option Nat × AllocState :=
  match findWorstAux requested_size s.chain 0 none with
  | some (i, _) => (some i, set_last_status s .ALLOC_SUCCESS)
  | none => (none, set_last_status s .ALLOC_OUT_OF_MEMORY)

/-- The strategy switch of `heap_alloc` (`src/src/allocator.c:267`); the C
`default` branch is unreachable because the enum has exactly these three
values. -/
def pickFit (s : AllocState) (total_size : Nat) : Option Nat × AllocState :=
  match s.current_strategy with
  | .FIRST_FIT => find_fit_first s total_size
  | .BEST_FIT => find_fit_best s total_size
  | .WORST_FIT => find_fit_worst s total_size

/-- The reuse branch of `heap_alloc` (`src/src/allocator.c:282`): mark the
found block used, split it when large enough, and return its payload
address with `ALLOC_SUCCESS`. -/
def allocFound (s₁ : AllocState) (i total_size : Nat) : Option Nat × AllocState :=
  match s₁.chain.get? i with
  | none => (none, s₁)
  | some found =>
    let s₂ := { s₁ with
      chain := s₁.chain.take i ++ { found with free := false } :: s₁.chain.drop (i + 1),
      mem := writeHeader s₁.mem found.addr }
    let s₃ := if (total_size + headerSize + ALIGNMENT) % W ≤ found.size then
                (split_block s₂ (some i) total_size).2
              else s₂
    (some (found.addr + headerSize), set_last_status s₃ .ALLOC_SUCCESS)

/-- The extension branch of `heap_alloc` (`src/src/allocator.c:295`): check
capacity and alignment, write a fresh header at the water-mark, link it as
the new tail and advance the water-mark. -/
def allocExtend (s₁ : AllocState) (total_size : Nat) : Option Nat × AllocState :=
  if HEAP_CAPACITY < (s₁.heap_size + total_size) % W then
    (none, set_last_status s₁ .ALLOC_OUT_OF_MEMORY)
  else if s₁.heap_size % ALIGNMENT ≠ 0 then
    (none, set_last_status s₁ .ALLOC_ALIGNMENT_ERROR)
  else
    let new_block : BlockHeader := { addr := s₁.heap_size, size := total_size, free := false }
    let memTail := match s₁.chain.getLast? with
                   | some t => writeHeader s₁.mem t.addr
                   | none => s₁.mem
    (some (s₁.heap_size + headerSize),
     set_last_status
       { s₁ with
         chain := s₁.chain ++ [new_block],
         heap_size := (s₁.heap_size + total_size) % W,
         mem := writeHeader memTail s₁.heap_size } .ALLOC_SUCCESS)

/-- `heap_alloc` from `src/src/allocator.c:257`.  `total_size` is computed in
`size_t` arithmetic; the reuse branch (`allocFound`) handles a hit from the
placement policy, the extension branch (`allocExtend`) appends at the
water-mark (the arena base is 16-aligned, so the defensive pointer-alignment
check is a check on `heap_size`).  Returns the payload offset. -/
def heap_alloc (s : AllocState) (requested_bytes : Nat) : Option Nat × AllocState :=
  if requested_bytes = 0 then (none, set_last_status s .ALLOC_ERROR)
  else
    let total_size := align ((requested_bytes + headerSize) % W)
    match pickFit s total_size with
    | (some i, s₁) => allocFound s₁ i total_size
    | (none, s₁) => allocExtend s₁ total_size

/-- `heap_free` from `src/src/allocator.c:343`: reject null, out-of-range and
already-free pointers (leaving everything but the status unchanged),
otherwise mark the header free and coalesce.  The header writes performed by
marking and coalescing land on the freed header and, when the predecessor is
free, on the predecessor's header. -/
def heap_free (s : AllocState) (ptr : Option Nat) : AllocState :=
  match ptr with
  | none => set_last_status s .ALLOC_INVALID_FREE
  | some p =>
    if (validate_pointer s ptr).1 = false then set_last_status s .ALLOC_HEAP_ERROR
    else
      match List.findIdx? (fun b => b.addr = p - headerSize) s.chain with
      | none => s
      | some i =>
        match s.chain.get? i with
        | none => s
        | some b =>
          if b.free then set_last_status s .ALLOC_INVALID_FREE
          else
            let marked := s.chain.take i ++ { b with free := true } :: s.chain.drop (i + 1)
            let memPrev := match (s.chain.take i).getLast? with
                           | some prev => if prev.free then writeHeader s.mem prev.addr else s.mem
                           | none => s.mem
            set_last_status
              { s with chain := coalesce_blocks marked i,
                       mem := writeHeader memPrev b.addr } .ALLOC_SUCCESS

/-- The split performed inside `heap_realloc` (`src/src/allocator.c:402` and
`src/src/allocator.c:427`): when the block at position `i` exceeds
`total_new + sizeof(BlockHeader) + ALIGNMENT` strictly, carve a free
remainder; unlike `split_block`, the first part keeps its `free` flag. -/
def reallocMaybeSplit (s : AllocState) (i : Nat) (b : BlockHeader) (total_new : Nat) :
    AllocState :=
  if (total_new + headerSize + ALIGNMENT) % W < b.size then
    { s with
      chain := s.chain.take i ++
        { addr := b.addr, size := total_new, free := b.free } ::
        { addr := b.addr + total_new, size := sub64 b.size total_new, free := true } ::
          s.chain.drop (i + 1),
      mem := writeHeader (writeHeader s.mem b.addr) (b.addr + total_new) }
  else s

/-- `heap_realloc` from `src/src/allocator.c:382`: delegate null pointers to
`heap_alloc`, zero sizes to `heap_free`; otherwise resize in place (case A:
the block already fits; case B: absorb a free successor, where the source
adds `sizeof(BlockHeader)` both to the guard and to the combined size) and
fall back to allocate-copy-free.  The copy length is read through the
pointer after the inner allocation. -/
def heap_realloc (s : AllocState) (ptr : Option Nat) (new_size : Nat) :
    Option Nat × AllocState :=
  match ptr with
  | none => heap_alloc s new_size
  | some p =>
    if new_size = 0 then (none, heap_free s ptr)
    else if (validate_pointer s ptr).1 = false then (none, set_last_status s .ALLOC_HEAP_ERROR)
    else
      match List.findIdx? (fun b => b.addr = p - headerSize) s.chain with
      | none => (none, s)
      | some i =>
        match s.chain.get? i with
        | none => (none, s)
        | some curr =>
          let total_new := align ((new_size + headerSize) % W)
          if total_new ≤ curr.size then
            (some p, set_last_status (reallocMaybeSplit s i curr total_new) .ALLOC_SUCCESS)
          else
            match s.chain.get? (i + 1) with
            | some nxt =>
              if nxt.free = true ∧ total_new ≤ (curr.size + nxt.size + headerSize) % W then
                let merged : BlockHeader :=
                  { addr := curr.addr, size := (curr.size + nxt.size + headerSize) % W,
                    free := curr.free }
                let s₁ := { s with
                  chain := s.chain.take i ++ merged :: s.chain.drop (i + 2),
                  mem := writeHeader s.mem curr.addr }
                (some p, set_last_status (reallocMaybeSplit s₁ i merged total_new) .ALLOC_SUCCESS)
              else
                reallocRelocate s p curr new_size
            | none => reallocRelocate s p curr new_size
where
  /-- The allocate-copy-free fallback (`src/src/allocator.c:444`). -/
  reallocRelocate (s : AllocState) (p : Nat) (curr : BlockHeader) (new_size : Nat) :
      Option Nat × AllocState :=
    match heap_alloc s new_size with
    | (none, s₁) => (none, set_last_status s₁ .ALLOC_OUT_OF_MEMORY)
    | (some np, s₁) =>
      let currSize :=
        match List.findIdx? (fun b => b.addr = p - headerSize) s₁.chain with
        | some j => match s₁.chain.get? j with
                    | some b => b.size
                    | none => curr.size
        | none => curr.size
      let copy_size := if new_size < sub64 currSize headerSize then new_size
                       else sub64 currSize headerSize
      let s₂ := { s₁ with mem := memcpy s₁.mem np p copy_size }
      let s₃ := heap_free s₂ (some p)
      (some np, set_last_status s₃ .ALLOC_SUCCESS)

/-- Loop of `defragment_heap` (`src/src/allocator.c:553`): coalesce the
current block while it and its successor are both free, otherwise advance.
Returns the new chain together with the offsets of the headers rewritten by
the merges.  (When the loop calls `coalesce_blocks`, the predecessor of the
current block is never free — the loop only advances past a pair that is not
free-free — so the backward half of `coalesce_blocks` never fires and each
call amounts to the forward merges modelled here.) -/
def defragAux : List BlockHeader → List BlockHeader × List Nat
  | [] => ([], [])
  | [b] => ([b], [])
  | b :: c :: rest =>
    if b.free ∧ c.free then
      let r := defragAux ({ b with size := (b.size + c.size) % W } :: rest)
      (r.1, b.addr :: r.2)
    else
      let r := defragAux (c :: rest)
      (b :: r.1, r.2)
termination_by l => l.length

/-- `defragment_heap` from `src/src/allocator.c:550`; sets no status. -/
def defragment_heap (s : AllocState) : AllocState :=
  let r := defragAux s.chain
  { s with chain := r.1, mem := r.2.foldl writeHeader s.mem }

/-- Loop of `check_heap_integrity` (`src/src/allocator.c:480`): cycle check
against the visited set, visited-capacity check, size/alignment check,
bounds check against `[first_block, first_block + HEAP_CAPACITY]`, and the
adjacent-free-pair check.  Returns the status the C code would set. -/
def integrityAux (start : Nat) : List Nat → List BlockHeader → AllocatorStatus
  | _, [] => .ALLOC_HEAP_OK
  | visited, b :: rest =>
    if visited.contains b.addr then .ALLOC_HEAP_ERROR
    else if HEAP_CAPACITY / headerSize ≤ visited.length then .ALLOC_HEAP_ERROR
    else if b.size = 0 ∨ b.size % ALIGNMENT ≠ 0 then .ALLOC_ALIGNMENT_ERROR
    else if b.addr < start ∨ start + HEAP_CAPACITY < b.addr + b.size then .ALLOC_HEAP_ERROR
    else if b.free then
      match rest with
      | n :: _ => if n.free then .ALLOC_HEAP_ERROR else integrityAux start (b.addr :: visited) rest
      | [] => integrityAux start (b.addr :: visited) rest
    else integrityAux start (b.addr :: visited) rest

/-- `check_heap_integrity` from `src/src/allocator.c:472`. -/
def check_heap_integrity (s : AllocState) : Bool × AllocState :=
  let start := match s.chain with
               | [] => 0
               | b :: _ => b.addr
  let st := integrityAux start [] s.chain
  (st = .ALLOC_HEAP_OK, set_last_status s st)

/-- `get_alloc_count` from `src/src/allocator.c:596`: count the non-free
headers; only reads state. -/
def get_alloc_count (s : AllocState) : Nat × AllocState :=
  (s.chain.foldl (fun c b => if b.free = false then c + 1 else c) 0, s)

/-- `get_free_block_count` from `src/src/allocator.c:615`. -/
def get_free_block_count (s : AllocState) : Nat × AllocState :=
  (s.chain.foldl (fun c b => if b.free = true then c + 1 else c) 0, s)

/-- `get_used_heap_size` from `src/src/allocator.c:634`: sum of all header
sizes in `size_t` arithmetic. -/
def get_used_heap_size (s : AllocState) : Nat × AllocState :=
  (s.chain.foldl (fun a b => (a + b.size) % W) 0, s)

/-- `get_free_heap_size` from `src/src/allocator.c:651`. -/
def get_free_heap_size (s : AllocState) : Nat × AllocState :=
  (s.chain.foldl (fun a b => if b.free = true then (a + b.size) % W else a) 0, s)

/-- `get_fragmentation_ratio` from `src/src/allocator.c:671`.  The C
`double` quotient is modelled as an exact rational; the claims proved about
this function concern only its state frame, which the number representation
does not affect. -/
def get_fragmentation_ratio (s : AllocState) : Rat × AllocState :=
  let cnt := s.chain.foldl (fun c b => if b.free = true then c + 1 else c) 0
  let tot := s.chain.foldl (fun a b => if b.free = true then (a + b.size) % W else a) 0
  if cnt = 0 ∨ tot = 0 then (0, s)
  else (((tot : Rat) / (cnt : Rat)) / (tot : Rat), s)

/-- `get_last_status` from `src/src/allocator.c:699`. -/
def get_last_status (s : AllocState) : AllocatorStatus × AllocState :=
  (s.last_status, s)

/-!
Spec-side predicates (written from the spec's words, §4.2): what it means
for a chain position to hold the first fit, the best fit (smallest
qualifying size, first encountered on ties) or the worst fit (largest
qualifying size, first encountered on ties).
-/

/-- A block qualifies for a request `r` when it is free and large enough. -/
def Qualifies (r : Nat) (b : BlockHeader) : Prop := b.free = true ∧ r ≤ b.size

/-- No chain block qualifies for the request. -/
def NoFit (c : List BlockHeader) (r : Nat) : Prop := ∀ b ∈ c, ¬ Qualifies r b

/-- Position `i` holds the first qualifying block. -/
def FirstFitAt (c : List BlockHeader) (r i : Nat) : Prop :=
  ∃ b, c.get? i = some b ∧ Qualifies r b ∧
    ∀ j bj, j < i → c.get? j = some bj → ¬ Qualifies r bj

/-- Position `i` holds a qualifying block of minimal size, and every earlier
qualifying block is strictly larger (ties go to the first encountered). -/
def BestFitAt (c : List BlockHeader) (r i : Nat) : Prop :=
  ∃ b, c.get? i = some b ∧ Qualifies r b ∧
    (∀ j bj, c.get? j = some bj → Qualifies r bj → b.size ≤ bj.size) ∧
    (∀ j bj, j < i → c.get? j = some bj → Qualifies r bj → b.size < bj.size)

/-- Position `i` holds a qualifying block of maximal size, and every earlier
qualifying block is strictly smaller (ties go to the first encountered). -/
def WorstFitAt (c : List BlockHeader) (r i : Nat) : Prop :=
  ∃ b, c.get? i = some b ∧ Qualifies r b ∧
    (∀ j bj, c.get? j = some bj → Qualifies r bj → bj.size ≤ b.size) ∧
    (∀ j bj, j < i → c.get? j = some bj → Qualifies r bj → bj.size < b.size)

/-- Reference recursion for the best fit of a chain: the qualifying position
of minimal size (first on ties), together with that size. -/
def bestCand (r : Nat) : List BlockHeader → Option (Nat × Nat)
  | [] => none
  | b :: rest =>
    match bestCand r rest with
    | none => if b.free = true ∧ r ≤ b.size then some (0, b.size) else none
    | some (j, sz) =>
      if b.free = true ∧ r ≤ b.size then
        if b.size ≤ sz then some (0, b.size) else some (j + 1, sz)
      else some (j + 1, sz)

/-- Reference recursion for the worst fit of a chain: the qualifying position
of maximal size (first on ties), together with that size. -/
def worstCand (r : Nat) : List BlockHeader → Option (Nat × Nat)
  | [] => none
  | b :: rest =>
    match worstCand r rest with
    | none => if b.free = true ∧ r ≤ b.size then some (0, b.size) else none
    | some (j, sz) =>
      if b.free = true ∧ r ≤ b.size then
        if sz ≤ b.size then some (0, b.size) else some (j + 1, sz)
      else some (j + 1, sz)

/-!
Structural well-formedness of a state, used as a hypothesis by the theorems
that quantify over states: the chain is the contiguous partition of
`[0, heap_size)` described in spec §3 (Coverage and Alignment), with the
minimum block size `align(1 + sizeof(header)) = 32` produced by the code.
-/

/-- The chain is contiguous from offset `a`, with aligned sizes of at least
32 bytes. -/
def chainOkB : Nat → List BlockHeader → Bool
  | _, [] => true
  | a, b :: rest =>
    decide (b.addr = a) && decide (32 ≤ b.size) && decide (b.size % ALIGNMENT = 0) &&
      chainOkB (a + b.size) rest

/-- Total of the `size` fields (as an unbounded natural). -/
def chainSum (c : List BlockHeader) : Nat := (c.map BlockHeader.size).sum

/-- Structural well-formedness: contiguous aligned chain summing to the
water-mark, which is within capacity. -/
def WF (s : AllocState) : Bool :=
  chainOkB 0 s.chain && decide (chainSum s.chain = s.heap_size) &&
    decide (s.heap_size ≤ HEAP_CAPACITY)

/-!
Concrete states and runs used by the settled claims.
-/

/-- C1's failing run: two allocations, a free and an in-place shrink, all of
which report success. -/
def c1s1 : AllocState := (heap_alloc initState 100).2

/-- Second step of the C1 run. -/
def c1s2 : AllocState := (heap_alloc c1s1 100).2

/-- Third step of the C1 run. -/
def c1s3 : AllocState := heap_free c1s2 (some 152)

/-- Final step of the C1 run: the shrink that leaves two adjacent free
blocks. -/
def c1s4 : Option Nat × AllocState := heap_realloc c1s3 (some 24) 8

/-- C7's failing run, first stage: build `[used 64, free 32, used 128]`. -/
def c7s3 : AllocState := heap_free (heap_alloc (heap_alloc (heap_alloc initState 40).2 8).2 100).2 (some 88)

/-- C7's failing run, absorb stage: the realloc that inflates block 0 to
size 120 = 64 + 32 + 24. -/
def c7s4 : AllocState := (heap_realloc c7s3 (some 24) 80).2

/-- C7's failing run, after freeing the last original block. -/
def c7s5 : AllocState := heap_free c7s4 (some 120)

/-- C7's reachable pre-state: a second absorb-and-split leaves a free block
whose payload offset 248 lies beyond the water-mark 224. -/
def c7s6 : AllocState := (heap_realloc c7s5 (some 24) 200).2

/-- The allocation step of C7's law: `heap_alloc 8` hands out the free block
beyond the water-mark. -/
def c7alloc : Option Nat × AllocState := heap_alloc c7s6 8

/-- The free step of C7's law, applied to the pointer the allocation
returned. -/
def c7free : AllocState := heap_free c7alloc.2 (some 248)

/-- Counterexample state for C2: a single allocated block of size 88 (a size
the absorb path of `heap_realloc` produces as 32 + 32 + 24). -/
def sC2 : AllocState :=
  { chain := [⟨0, 88, false⟩], heap_size := 88, current_strategy := .FIRST_FIT,
    last_status := .ALLOC_SUCCESS, mem := fun _ => 0 }

/-- Counterexample state for C4: a splittable free block while the recorded
status is `ALLOC_OUT_OF_MEMORY`. -/
def sC4 : AllocState :=
  { chain := [⟨0, 128, true⟩], heap_size := 128, current_strategy := .FIRST_FIT,
    last_status := .ALLOC_OUT_OF_MEMORY, mem := fun _ => 0 }

/-- Counterexample state for C5: one free block of size `SIZE_MAX`. -/
def sC5 : AllocState :=
  { chain := [⟨0, SIZE_MAX, true⟩], heap_size := 0, current_strategy := .BEST_FIT,
    last_status := .ALLOC_SUCCESS, mem := fun _ => 0 }

/-- Counterexample state for C6: one allocated block of size 128 whose
payload bytes are known (byte `i` holds `i + 1`). -/
def sC6 : AllocState :=
  { chain := [⟨0, 128, false⟩], heap_size := 128, current_strategy := .FIRST_FIT,
    last_status := .ALLOC_SUCCESS, mem := fun i => i + 1 }

/-- A small well-formed state shared by the witnesses: an allocated block of
size 64 followed by a free block of size 32, water-mark 96, known bytes. -/
def sW : AllocState :=
  { chain := [⟨0, 64, false⟩, ⟨64, 32, true⟩], heap_size := 96,
    current_strategy := .FIRST_FIT, last_status := .ALLOC_SUCCESS, mem := fun i => i % 251 }

/-!
Settled claims.  Each claim of the specification audit gets exactly one
theorem below (plus a counterexample or witness where required).
-/

/-- C1: the claim states that every success-only sequence of public
operations preserves Coverage, Alignment, No-adjacent-free-pair and
Acyclicity.  The code violates the no-adjacent-free-pair invariant: in the
run `heap_alloc 100; heap_alloc 100; heap_free; heap_realloc _ 8` every
operation reports `ALLOC_SUCCESS`, yet the in-place shrink of `heap_realloc`
splits off a free remainder directly in front of an already-free block
without coalescing, and the allocator's own `check_heap_integrity` then
rejects the chain with `ALLOC_HEAP_ERROR`. -/
theorem c1_realloc_creates_adjacent_free_pair :
    (heap_alloc initState 100).1 = some 24 ∧ c1s1.last_status = .ALLOC_SUCCESS ∧
    (heap_alloc c1s1 100).1 = some 152 ∧ c1s2.last_status = .ALLOC_SUCCESS ∧
    c1s3.last_status = .ALLOC_SUCCESS ∧
    c1s4.1 = some 24 ∧ c1s4.2.last_status = .ALLOC_SUCCESS ∧
    c1s4.2.chain = [⟨0, 32, false⟩, ⟨32, 96, true⟩, ⟨128, 128, true⟩] ∧
    (c1s4.2.chain.get? 1).map BlockHeader.free = some true ∧
    (c1s4.2.chain.get? 2).map BlockHeader.free = some true ∧
    (check_heap_integrity c1s4.2).1 = false ∧
    (check_heap_integrity c1s4.2).2.last_status = .ALLOC_HEAP_ERROR := by
  decide

/-- C7: the claim states that from every state reachable by successful
operations, `heap_free (heap_alloc n)` restores `get_alloc_count`.  The code
violates it: the absorb path of `heap_realloc` inflates a block's size by
`sizeof(BlockHeader)` (twice in this run), after which a split plants a free
block whose payload offset 248 lies beyond the water-mark 224; `heap_alloc 8`
hands that block out with `ALLOC_SUCCESS`, and `heap_free` of the returned
pointer is rejected by `validate_pointer` with `ALLOC_HEAP_ERROR`, so the
allocation count stays at 2 instead of returning to 1.  Every operation
leading to the pre-state reports `ALLOC_SUCCESS`. -/
theorem c7_alloc_free_count_mismatch :
    (heap_alloc initState 40).1 = some 24 ∧
    (heap_alloc initState 40).2.last_status = .ALLOC_SUCCESS ∧
    (heap_alloc (heap_alloc initState 40).2 8).1 = some 88 ∧
    (heap_alloc (heap_alloc initState 40).2 8).2.last_status = .ALLOC_SUCCESS ∧
    (heap_alloc (heap_alloc (heap_alloc initState 40).2 8).2 100).1 = some 120 ∧
    (heap_alloc (heap_alloc (heap_alloc initState 40).2 8).2 100).2.last_status =
      .ALLOC_SUCCESS ∧
    c7s3.last_status = .ALLOC_SUCCESS ∧
    (heap_realloc c7s3 (some 24) 80).1 = some 24 ∧ c7s4.last_status = .ALLOC_SUCCESS ∧
    c7s5.last_status = .ALLOC_SUCCESS ∧
    (heap_realloc c7s5 (some 24) 200).1 = some 24 ∧ c7s6.last_status = .ALLOC_SUCCESS ∧
    c7s6.heap_size = 224 ∧
    c7s6.chain = [⟨0, 224, false⟩, ⟨224, 48, true⟩] ∧
    (get_alloc_count c7s6).1 = 1 ∧
    c7alloc.1 = some 248 ∧ c7alloc.2.last_status = .ALLOC_SUCCESS ∧
    c7free.last_status = .ALLOC_HEAP_ERROR ∧
    c7free.chain = c7alloc.2.chain ∧
    (get_alloc_count c7free).1 = 2 := by
  decide

/-- C2 counterexample: the claim says case A of `heap_realloc` splits off a
free remainder exactly when the residue is at least
`sizeof(header) + ALIGNMENT = 40`.  On a block of size 88 (a size the absorb
path itself produces) with `total_new = 48` the residue is exactly 40, yet
the code — whose guard is the strict `curr->size > total_new + 40` — does
not split: the chain is returned unchanged. -/
theorem c2_counterexample_residue_forty :
    align ((20 + headerSize) % W) = 48 ∧
    88 - 48 = headerSize + ALIGNMENT ∧
    (heap_realloc sC2 (some 24) 20).1 = some 24 ∧
    (heap_realloc sC2 (some 24) 20).2.last_status = .ALLOC_SUCCESS ∧
    (heap_realloc sC2 (some 24) 20).2.chain = [⟨0, 88, false⟩] := by
  decide

/-- C4 counterexample: the claim says a successful `split_block` sets status
`SUCCESS`.  The source's success path contains no `set_last_status` call:
splitting a 128-byte free block while the recorded status is
`ALLOC_OUT_OF_MEMORY` performs the split and leaves that stale status in
place. -/
theorem c4_counterexample_status_not_set :
    (split_block sC4 (some 0) 32).1 = some 24 ∧
    (split_block sC4 (some 0) 32).2.chain = [⟨0, 32, false⟩, ⟨32, 96, true⟩] ∧
    (split_block sC4 (some 0) 32).2.last_status = .ALLOC_OUT_OF_MEMORY ∧
    AllocatorStatus.ALLOC_OUT_OF_MEMORY ≠ AllocatorStatus.ALLOC_SUCCESS := by
  decide

/-- C5 counterexample: the claim quantifies over every chain, but on a chain
whose only block is free with size `SIZE_MAX`, `find_fit_best` returns
nothing and sets `ALLOC_OUT_OF_MEMORY` even though that block qualifies for
the request: the running best size starts at the sentinel `SIZE_MAX` and the
strict comparison `curr->size < best_size` never records the block. -/
theorem c5_counterexample_size_max_block :
    sC5.chain = [⟨0, SIZE_MAX, true⟩] ∧
    Qualifies 16 ⟨0, SIZE_MAX, true⟩ ∧
    (find_fit_best sC5 16).1 = none ∧
    (find_fit_best sC5 16).2.last_status = .ALLOC_OUT_OF_MEMORY := by
  refine ⟨rfl, ⟨rfl, by decide⟩, by decide, by decide⟩

/-- C6 counterexample: the claim asserts payload preservation for every
successful `heap_realloc`.  With `n = 2^64 - 17` the `size_t` total wraps to
`align(7) = 16 < sizeof(header)`, so the in-place shrink path writes the new
remainder header at offset 16 — on top of the first payload bytes — and
still returns the original pointer with `ALLOC_SUCCESS`: byte 0 of the
payload (arena offset 24, previously 25) is destroyed although
`min(old_payload, n) > 0` says it must be preserved. -/
theorem c6_counterexample_wraparound_clobbers_payload :
    align ((2 ^ 64 - 17 + headerSize) % W) = 16 ∧
    (heap_realloc sC6 (some 24) (2 ^ 64 - 17)).1 = some 24 ∧
    (heap_realloc sC6 (some 24) (2 ^ 64 - 17)).2.last_status = .ALLOC_SUCCESS ∧
    (heap_realloc sC6 (some 24) (2 ^ 64 - 17)).2.mem 24 = 0 ∧
    sC6.mem 24 = 25 ∧
    0 < min (128 - headerSize) (2 ^ 64 - 17) := by
  refine ⟨by decide, by decide, by decide, by decide, rfl, by decide⟩

/-- C8: `size_t` arithmetic wraps, so requests beyond the capacity can
succeed: whenever `n + sizeof(header)` reaches `2^64` the computed total
`align((n + 24) mod 2^64)` is at most 32, and concretely
`heap_alloc (2^64 - 1)` on the empty arena succeeds with a 32-byte block
(8 payload bytes) although `2^64 - 1` far exceeds `HEAP_CAPACITY`. -/
theorem c8_wraparound_alloc :
    (∀ n, n < W → W ≤ n + headerSize → align ((n + headerSize) % W) ≤ 2 * ALIGNMENT) ∧
    HEAP_CAPACITY < 2 ^ 64 - 1 ∧
    (heap_alloc initState (2 ^ 64 - 1)).1 = some 24 ∧
    (heap_alloc initState (2 ^ 64 - 1)).2.last_status = .ALLOC_SUCCESS ∧
    (heap_alloc initState (2 ^ 64 - 1)).2.chain = [⟨0, 32, false⟩] ∧
    align ((2 ^ 64 - 1 + headerSize) % W) = 32 := by
  refine ⟨?_, by decide, by decide, by decide, by decide, by decide⟩
  intro n hn hge
  simp only [align, W, ALIGNMENT, headerSize] at hn hge ⊢
  have h1 : (n + 24) % 2 ^ 64 = n + 24 - 2 ^ 64 := by omega
  rw [h1]
  split
  · rw [Nat.mod_eq_of_lt (by omega)]
    omega
  · omega

/-- Witness for C8: the wraparound bound applied at `n = 2^64 - 1`. -/
theorem c8_wraparound_alloc_witness :
    align ((2 ^ 64 - 1 + headerSize) % W) ≤ 2 * ALIGNMENT :=
  c8_wraparound_alloc.1 (2 ^ 64 - 1) (by decide) (by decide)

/-!
Helper lemmas for the placement policies: the scanning loops of the three
`find_fit` functions are related to the reference recursions `bestCand` and
`worstCand`, which are then shown to compute the spec-side optima.
-/

theorem findFirstAux_spec (r : Nat) :
    ∀ (l : List BlockHeader) (k : Nat),
      (findFirstAux r l k = none → ∀ b ∈ l, ¬ Qualifies r b) ∧
      (∀ j, findFirstAux r l k = some j → k ≤ j ∧
        ∃ b, l.get? (j - k) = some b ∧ Qualifies r b ∧
          ∀ j' bj, j' < j - k → l.get? j' = some bj → ¬ Qualifies r bj) := by
  intro l
  induction l with
  | nil =>
    intro k
    exact ⟨fun _ b hb => absurd hb (List.not_mem_nil b),
           fun j h => by simp [findFirstAux] at h⟩
  | cons b rest ih =>
    intro k
    by_cases hq : b.free = true ∧ r ≤ b.size
    · constructor
      · intro h
        simp only [findFirstAux, if_pos hq] at h
        exact Option.noConfusion h
      · intro j h
        simp only [findFirstAux, if_pos hq, Option.some.injEq] at h
        subst h
        refine ⟨le_refl _, b, ?_, hq, ?_⟩
        · simp
        · intro j' bj hlt
          omega
    · constructor
      · intro h
        simp only [findFirstAux, if_neg hq] at h
        intro b' hb'
        rcases List.mem_cons.mp hb' with rfl | hmem
        · exact hq
        · exact (ih (k + 1)).1 h b' hmem
      · intro j h
        simp only [findFirstAux, if_neg hq] at h
        obtain ⟨hk, bb, hbb, hqb, hearly⟩ := (ih (k + 1)).2 j h
        refine ⟨by omega, bb, ?_, hqb, ?_⟩
        · have : j - k = (j - (k + 1)) + 1 := by omega
          rw [this, List.get?_cons_succ]
          exact hbb
        · intro j' bj hlt hj'
          cases j' with
          | zero =>
            rw [List.get?_cons_zero, Option.some.injEq] at hj'
            subst hj'
            exact hq
          | succ j'' =>
            rw [List.get?_cons_succ] at hj'
            exact hearly j'' bj (by omega) hj'

theorem findBestAux_eq (r : Nat) :
    ∀ (l : List BlockHeader) (k : Nat) (best : Option Nat) (bsz : Nat),
      findBestAux r l k best bsz =
        match bestCand r l with
        | none => best
        | some (j, sz) => if sz < bsz then some (k + j) else best := by
  intro l
  induction l with
  | nil => intro k best bsz; rfl
  | cons b rest ih =>
    intro k best bsz
    by_cases hq : b.free = true ∧ r ≤ b.size
    · by_cases hlt : b.size < bsz
      · have hstep : findBestAux r (b :: rest) k best bsz
            = findBestAux r rest (k + 1) (some k) b.size := by
          simp only [findBestAux]
          rw [if_pos ⟨hq.1, hq.2, hlt⟩]
        rw [hstep, ih]
        cases hc : bestCand r rest with
        | none =>
          simp only [bestCand, hc, if_pos hq, if_pos hlt]
          simp
        | some p =>
          obtain ⟨j, sz⟩ := p
          simp only [bestCand, hc, if_pos hq]
          by_cases hle : b.size ≤ sz
          · simp only [if_pos hle, if_neg (show ¬ sz < b.size by omega), if_pos hlt]
            simp
          · simp only [if_neg hle, if_pos (show sz < b.size by omega),
              if_pos (show sz < bsz by omega)]
            congr 1
            omega
      · have hstep : findBestAux r (b :: rest) k best bsz
            = findBestAux r rest (k + 1) best bsz := by
          simp only [findBestAux]
          rw [if_neg (by tauto)]
        rw [hstep, ih]
        cases hc : bestCand r rest with
        | none =>
          simp only [bestCand, hc, if_pos hq, if_neg hlt]
        | some p =>
          obtain ⟨j, sz⟩ := p
          simp only [bestCand, hc, if_pos hq]
          by_cases hle : b.size ≤ sz
          · simp only [if_pos hle, if_neg (show ¬ sz < bsz by omega), if_neg hlt]
          · simp only [if_neg hle]
            by_cases h2 : sz < bsz
            · simp only [if_pos h2]
              congr 1
              omega
            · simp only [if_neg h2]
    · have hstep : findBestAux r (b :: rest) k best bsz
          = findBestAux r rest (k + 1) best bsz := by
        simp only [findBestAux]
        rw [if_neg (by tauto)]
      rw [hstep, ih]
      cases hc : bestCand r rest with
      | none =>
        simp only [bestCand, hc, if_neg hq]
      | some p =>
        obtain ⟨j, sz⟩ := p
        simp only [bestCand, hc, if_neg hq]
        by_cases h2 : sz < bsz
        · simp only [if_pos h2]
          congr 1
          omega
        · simp only [if_neg h2]

theorem bestCand_none (r : Nat) :
    ∀ l, bestCand r l = none → ∀ b ∈ l, ¬ Qualifies r b := by
  intro l
  induction l with
  | nil => intro _ b hb; exact absurd hb (List.not_mem_nil b)
  | cons b rest ih =>
    intro h
    cases hc : bestCand r rest with
    | none =>
      simp only [bestCand, hc] at h
      by_cases hq : b.free = true ∧ r ≤ b.size
      · rw [if_pos hq] at h
        exact Option.noConfusion h
      · intro b' hb'
        rcases List.mem_cons.mp hb' with rfl | hmem
        · exact hq
        · exact ih hc b' hmem
    | some p =>
      obtain ⟨j, sz⟩ := p
      simp only [bestCand, hc] at h
      by_cases hq : b.free = true ∧ r ≤ b.size
      · rw [if_pos hq] at h
        split at h <;> exact Option.noConfusion h
      · rw [if_neg hq] at h
        exact Option.noConfusion h

theorem bestCand_some (r : Nat) :
    ∀ l j sz, bestCand r l = some (j, sz) →
      ∃ b, l.get? j = some b ∧ b.size = sz ∧ Qualifies r b ∧
        (∀ j' bj, l.get? j' = some bj → Qualifies r bj → sz ≤ bj.size) ∧
        (∀ j' bj, j' < j → l.get? j' = some bj → Qualifies r bj → sz < bj.size) := by
  intro l
  induction l with
  | nil => intro j sz h; exact Option.noConfusion h
  | cons b rest ih =>
    intro j sz h
    cases hc : bestCand r rest with
    | none =>
      have hrest := bestCand_none r rest hc
      simp only [bestCand, hc] at h
      by_cases hq : b.free = true ∧ r ≤ b.size
      · rw [if_pos hq] at h
        simp only [Option.some.injEq, Prod.mk.injEq] at h
        obtain ⟨rfl, rfl⟩ := h
        refine ⟨b, by simp, rfl, hq, ?_, ?_⟩
        · intro j' bj hj' hqj
          cases j' with
          | zero =>
            rw [List.get?_cons_zero, Option.some.injEq] at hj'
            subst hj'
            exact le_refl _
          | succ j'' =>
            rw [List.get?_cons_succ] at hj'
            exact absurd hqj (hrest bj (List.get?_mem hj'))
        · intro j' bj hlt
          omega
      · rw [if_neg hq] at h
        exact Option.noConfusion h
    | some p =>
      obtain ⟨j0, sz0⟩ := p
      obtain ⟨b0, hb0, hb0sz, hq0, hmin, hstrict⟩ := ih j0 sz0 hc
      simp only [bestCand, hc] at h
      by_cases hq : b.free = true ∧ r ≤ b.size
      · rw [if_pos hq] at h
        by_cases hle : b.size ≤ sz0
        · rw [if_pos hle] at h
          simp only [Option.some.injEq, Prod.mk.injEq] at h
          obtain ⟨rfl, rfl⟩ := h
          refine ⟨b, by simp, rfl, hq, ?_, ?_⟩
          · intro j' bj hj' hqj
            cases j' with
            | zero =>
              rw [List.get?_cons_zero, Option.some.injEq] at hj'
              subst hj'
              exact le_refl _
            | succ j'' =>
              rw [List.get?_cons_succ] at hj'
              calc b.size ≤ sz0 := hle
                _ = b0.size := hb0sz.symm
                _ ≤ _ := by rw [hb0sz]; exact hmin j'' bj hj' hqj
          · intro j' bj hlt
            omega
        · rw [if_neg hle] at h
          simp only [Option.some.injEq, Prod.mk.injEq] at h
          obtain ⟨rfl, rfl⟩ := h
          refine ⟨b0, by simpa using hb0, hb0sz, hq0, ?_, ?_⟩
          · intro j' bj hj' hqj
            cases j' with
            | zero =>
              rw [List.get?_cons_zero, Option.some.injEq] at hj'
              subst hj'
              omega
            | succ j'' =>
              rw [List.get?_cons_succ] at hj'
              exact hmin j'' bj hj' hqj
          · intro j' bj hlt hj' hqj
            cases j' with
            | zero =>
              rw [List.get?_cons_zero, Option.some.injEq] at hj'
              subst hj'
              omega
            | succ j'' =>
              rw [List.get?_cons_succ] at hj'
              exact hstrict j'' bj (by omega) hj' hqj
      · rw [if_neg hq] at h
        simp only [Option.some.injEq, Prod.mk.injEq] at h
        obtain ⟨rfl, rfl⟩ := h
        refine ⟨b0, by simpa using hb0, hb0sz, hq0, ?_, ?_⟩
        · intro j' bj hj' hqj
          cases j' with
          | zero =>
            rw [List.get?_cons_zero, Option.some.injEq] at hj'
            subst hj'
            exact absurd hqj hq
          | succ j'' =>
            rw [List.get?_cons_succ] at hj'
            exact hmin j'' bj hj' hqj
        · intro j' bj hlt hj' hqj
          cases j' with
          | zero =>
            rw [List.get?_cons_zero, Option.some.injEq] at hj'
            subst hj'
            exact absurd hqj hq
          | succ j'' =>
            rw [List.get?_cons_succ] at hj'
            exact hstrict j'' bj (by omega) hj' hqj

theorem findWorstAux_eq (r : Nat) :
    ∀ (l : List BlockHeader) (k : Nat) (acc : Option (Nat × Nat)),
      findWorstAux r l k acc =
        match worstCand r l with
        | none => acc
        | some (j, sz) =>
          match acc with
          | none => some (k + j, sz)
          | some (wi, ws) => if ws < sz then some (k + j, sz) else some (wi, ws) := by
  intro l
  induction l with
  | nil => intro k acc; cases acc <;> rfl
  | cons b rest ih =>
    intro k acc
    by_cases hq : b.free = true ∧ r ≤ b.size
    · cases acc with
      | none =>
        have hstep : findWorstAux r (b :: rest) k none
            = findWorstAux r rest (k + 1) (some (k, b.size)) := by
          simp only [findWorstAux, if_pos hq]
        rw [hstep, ih]
        cases hc : worstCand r rest with
        | none =>
          simp only [worstCand, hc, if_pos hq]
          simp
        | some p =>
          obtain ⟨j, sz⟩ := p
          simp only [worstCand, hc, if_pos hq]
          by_cases hle : sz ≤ b.size
          · simp only [if_pos hle, if_neg (show ¬ b.size < sz by omega)]
            simp
          · simp only [if_neg hle, if_pos (show b.size < sz by omega)]
            simp only [Option.some.injEq, Prod.mk.injEq]
            exact ⟨by omega, trivial⟩
      | some p =>
        obtain ⟨wi, ws⟩ := p
        by_cases hws : ws < b.size
        · have hstep : findWorstAux r (b :: rest) k (some (wi, ws))
              = findWorstAux r rest (k + 1) (some (k, b.size)) := by
            simp only [findWorstAux, if_pos hq, if_pos hws]
          rw [hstep, ih]
          cases hc : worstCand r rest with
          | none =>
            simp only [worstCand, hc, if_pos hq, if_pos hws]
            simp
          | some p2 =>
            obtain ⟨j, sz⟩ := p2
            simp only [worstCand, hc, if_pos hq]
            by_cases hle : sz ≤ b.size
            · simp only [if_pos hle, if_neg (show ¬ b.size < sz by omega), if_pos hws]
              simp
            · simp only [if_neg hle, if_pos (show b.size < sz by omega),
                if_pos (show ws < sz by omega)]
              simp only [Option.some.injEq, Prod.mk.injEq]
              exact ⟨by omega, trivial⟩
        · have hstep : findWorstAux r (b :: rest) k (some (wi, ws))
              = findWorstAux r rest (k + 1) (some (wi, ws)) := by
            simp only [findWorstAux, if_pos hq, if_neg hws]
          rw [hstep, ih]
          cases hc : worstCand r rest with
          | none =>
            simp only [worstCand, hc, if_pos hq, if_neg hws]
          | some p2 =>
            obtain ⟨j, sz⟩ := p2
            simp only [worstCand, hc, if_pos hq]
            by_cases hle : sz ≤ b.size
            · simp only [if_pos hle, if_neg (show ¬ ws < sz by omega), if_neg hws]
            · simp only [if_neg hle]
              by_cases h2 : ws < sz
              · simp only [if_pos h2]
                simp only [Option.some.injEq, Prod.mk.injEq]
                exact ⟨by omega, trivial⟩
              · simp only [if_neg h2]
    · have hstep : findWorstAux r (b :: rest) k acc
          = findWorstAux r rest (k + 1) acc := by
        simp only [findWorstAux, if_neg hq]
      rw [hstep, ih]
      cases hc : worstCand r rest with
      | none =>
        simp only [worstCand, hc, if_neg hq]
      | some p =>
        obtain ⟨j, sz⟩ := p
        simp only [worstCand, hc, if_neg hq]
        cases acc with
        | none =>
          simp only [Option.some.injEq, Prod.mk.injEq]
          exact ⟨by omega, trivial⟩
        | some p2 =>
          obtain ⟨wi, ws⟩ := p2
          by_cases h2 : ws < sz
          · simp only [if_pos h2, Option.some.injEq, Prod.mk.injEq]
            exact ⟨by omega, trivial⟩
          · simp only [if_neg h2]

theorem worstCand_none (r : Nat) :
    ∀ l, worstCand r l = none → ∀ b ∈ l, ¬ Qualifies r b := by
  intro l
  induction l with
  | nil => intro _ b hb; exact absurd hb (List.not_mem_nil b)
  | cons b rest ih =>
    intro h
    cases hc : worstCand r rest with
    | none =>
      simp only [worstCand, hc] at h
      by_cases hq : b.free = true ∧ r ≤ b.size
      · rw [if_pos hq] at h
        exact Option.noConfusion h
      · intro b' hb'
        rcases List.mem_cons.mp hb' with rfl | hmem
        · exact hq
        · exact ih hc b' hmem
    | some p =>
      obtain ⟨j, sz⟩ := p
      simp only [worstCand, hc] at h
      by_cases hq : b.free = true ∧ r ≤ b.size
      · rw [if_pos hq] at h
        split at h <;> exact Option.noConfusion h
      · rw [if_neg hq] at h
        exact Option.noConfusion h

theorem worstCand_some (r : Nat) :
    ∀ l j sz, worstCand r l = some (j, sz) →
      ∃ b, l.get? j = some b ∧ b.size = sz ∧ Qualifies r b ∧
        (∀ j' bj, l.get? j' = some bj → Qualifies r bj → bj.size ≤ sz) ∧
        (∀ j' bj, j' < j → l.get? j' = some bj → Qualifies r bj → bj.size < sz) := by
  intro l
  induction l with
  | nil => intro j sz h; exact Option.noConfusion h
  | cons b rest ih =>
    intro j sz h
    cases hc : worstCand r rest with
    | none =>
      have hrest := worstCand_none r rest hc
      simp only [worstCand, hc] at h
      by_cases hq : b.free = true ∧ r ≤ b.size
      · rw [if_pos hq] at h
        simp only [Option.some.injEq, Prod.mk.injEq] at h
        obtain ⟨rfl, rfl⟩ := h
        refine ⟨b, by simp, rfl, hq, ?_, ?_⟩
        · intro j' bj hj' hqj
          cases j' with
          | zero =>
            rw [List.get?_cons_zero, Option.some.injEq] at hj'
            subst hj'
            exact le_refl _
          | succ j'' =>
            rw [List.get?_cons_succ] at hj'
            exact absurd hqj (hrest bj (List.get?_mem hj'))
        · intro j' bj hlt
          omega
      · rw [if_neg hq] at h
        exact Option.noConfusion h
    | some p =>
      obtain ⟨j0, sz0⟩ := p
      obtain ⟨b0, hb0, hb0sz, hq0, hmax, hstrict⟩ := ih j0 sz0 hc
      simp only [worstCand, hc] at h
      by_cases hq : b.free = true ∧ r ≤ b.size
      · rw [if_pos hq] at h
        by_cases hle : sz0 ≤ b.size
        · rw [if_pos hle] at h
          simp only [Option.some.injEq, Prod.mk.injEq] at h
          obtain ⟨rfl, rfl⟩ := h
          refine ⟨b, by simp, rfl, hq, ?_, ?_⟩
          · intro j' bj hj' hqj
            cases j' with
            | zero =>
              rw [List.get?_cons_zero, Option.some.injEq] at hj'
              subst hj'
              exact le_refl _
            | succ j'' =>
              rw [List.get?_cons_succ] at hj'
              exact le_trans (hmax j'' bj hj' hqj) hle
          · intro j' bj hlt
            omega
        · rw [if_neg hle] at h
          simp only [Option.some.injEq, Prod.mk.injEq] at h
          obtain ⟨rfl, rfl⟩ := h
          refine ⟨b0, by simpa using hb0, hb0sz, hq0, ?_, ?_⟩
          · intro j' bj hj' hqj
            cases j' with
            | zero =>
              rw [List.get?_cons_zero, Option.some.injEq] at hj'
              subst hj'
              omega
            | succ j'' =>
              rw [List.get?_cons_succ] at hj'
              exact hmax j'' bj hj' hqj
          · intro j' bj hlt hj' hqj
            cases j' with
            | zero =>
              rw [List.get?_cons_zero, Option.some.injEq] at hj'
              subst hj'
              omega
            | succ j'' =>
              rw [List.get?_cons_succ] at hj'
              exact hstrict j'' bj (by omega) hj' hqj
      · rw [if_neg hq] at h
        simp only [Option.some.injEq, Prod.mk.injEq] at h
        obtain ⟨rfl, rfl⟩ := h
        refine ⟨b0, by simpa using hb0, hb0sz, hq0, ?_, ?_⟩
        · intro j' bj hj' hqj
          cases j' with
          | zero =>
            rw [List.get?_cons_zero, Option.some.injEq] at hj'
            subst hj'
            exact absurd hqj hq
          | succ j'' =>
            rw [List.get?_cons_succ] at hj'
            exact hmax j'' bj hj' hqj
        · intro j' bj hlt hj' hqj
          cases j' with
          | zero =>
            rw [List.get?_cons_zero, Option.some.injEq] at hj'
            subst hj'
            exact absurd hqj hq
          | succ j'' =>
            rw [List.get?_cons_succ] at hj'
            exact hstrict j'' bj (by omega) hj' hqj

theorem find_fit_best_eq (s : AllocState) (r : Nat) :
    find_fit_best s r =
      match bestCand r s.chain with
      | some (j, sz) =>
        if sz < SIZE_MAX then (some j, set_last_status s .ALLOC_SUCCESS)
        else (none, set_last_status s .ALLOC_OUT_OF_MEMORY)
      | none => (none, set_last_status s .ALLOC_OUT_OF_MEMORY) := by
  unfold find_fit_best
  rw [findBestAux_eq]
  cases hc : bestCand r s.chain with
  | none => rfl
  | some p =>
    obtain ⟨j, sz⟩ := p
    by_cases h2 : sz < SIZE_MAX
    · simp only [if_pos h2]
      simp
    · simp only [if_neg h2]

theorem find_fit_worst_eq (s : AllocState) (r : Nat) :
    find_fit_worst s r =
      match worstCand r s.chain with
      | some (j, _sz) => (some j, set_last_status s .ALLOC_SUCCESS)
      | none => (none, set_last_status s .ALLOC_OUT_OF_MEMORY) := by
  unfold find_fit_worst
  rw [findWorstAux_eq]
  cases hc : worstCand r s.chain with
  | none => rfl
  | some p =>
    obtain ⟨j, _sz⟩ := p
    simp

theorem find_fit_first_some (s : AllocState) (r i : Nat)
    (h : (find_fit_first s r).1 = some i) :
    FirstFitAt s.chain r i ∧ find_fit_first s r = (some i, set_last_status s .ALLOC_SUCCESS) := by
  unfold find_fit_first at h ⊢
  cases haux : findFirstAux r s.chain 0 with
  | none => rw [haux] at h; exact Option.noConfusion h
  | some j =>
    rw [haux] at h
    simp only [Option.some.injEq] at h
    subst h
    obtain ⟨-, b, hb, hqb, hearly⟩ := (findFirstAux_spec r s.chain 0).2 j haux
    rw [Nat.sub_zero] at hb
    refine ⟨⟨b, hb, hqb, fun j' bj hj' hbj => hearly j' bj (by omega) hbj⟩, rfl⟩

theorem find_fit_first_none (s : AllocState) (r : Nat)
    (h : (find_fit_first s r).1 = none) :
    NoFit s.chain r ∧ find_fit_first s r = (none, set_last_status s .ALLOC_OUT_OF_MEMORY) := by
  unfold find_fit_first at h ⊢
  cases haux : findFirstAux r s.chain 0 with
  | some j => rw [haux] at h; exact Option.noConfusion h
  | none =>
    exact ⟨(findFirstAux_spec r s.chain 0).1 haux, rfl⟩

theorem find_fit_best_some (s : AllocState) (r i : Nat)
    (h : (find_fit_best s r).1 = some i) :
    BestFitAt s.chain r i ∧ find_fit_best s r = (some i, set_last_status s .ALLOC_SUCCESS) := by
  rw [find_fit_best_eq] at h ⊢
  cases hc : bestCand r s.chain with
  | none => rw [hc] at h; exact Option.noConfusion h
  | some p =>
    obtain ⟨j, sz⟩ := p
    rw [hc] at h
    by_cases h2 : sz < SIZE_MAX
    · simp only [if_pos h2] at h ⊢
      simp only [Option.some.injEq] at h
      subst h
      obtain ⟨b, hb, hbsz, hqb, hmin, hstrict⟩ := bestCand_some r s.chain j sz hc
      subst hbsz
      exact ⟨⟨b, hb, hqb, hmin, hstrict⟩, rfl⟩
    · simp only [if_neg h2] at h
      exact Option.noConfusion h

theorem find_fit_best_none (s : AllocState) (r : Nat)
    (hsz : ∀ b ∈ s.chain, b.size < SIZE_MAX)
    (h : (find_fit_best s r).1 = none) :
    NoFit s.chain r := by
  rw [find_fit_best_eq] at h
  cases hc : bestCand r s.chain with
  | none => exact bestCand_none r s.chain hc
  | some p =>
    obtain ⟨j, sz⟩ := p
    rw [hc] at h
    obtain ⟨b, hb, hbsz, hqb, -, -⟩ := bestCand_some r s.chain j sz hc
    have : sz < SIZE_MAX := hbsz ▸ hsz b (List.get?_mem hb)
    simp only [if_pos this] at h
    exact Option.noConfusion h

theorem find_fit_best_none_frame (s : AllocState) (r : Nat)
    (h : (find_fit_best s r).1 = none) :
    find_fit_best s r = (none, set_last_status s .ALLOC_OUT_OF_MEMORY) := by
  rw [find_fit_best_eq] at h ⊢
  cases hc : bestCand r s.chain with
  | none => rfl
  | some p =>
    obtain ⟨j, sz⟩ := p
    rw [hc] at h
    by_cases h2 : sz < SIZE_MAX
    · simp only [if_pos h2] at h
      exact Option.noConfusion h
    · simp only [if_neg h2]

theorem find_fit_worst_some (s : AllocState) (r i : Nat)
    (h : (find_fit_worst s r).1 = some i) :
    WorstFitAt s.chain r i ∧ find_fit_worst s r = (some i, set_last_status s .ALLOC_SUCCESS) := by
  rw [find_fit_worst_eq] at h ⊢
  cases hc : worstCand r s.chain with
  | none => rw [hc] at h; exact Option.noConfusion h
  | some p =>
    obtain ⟨j, sz⟩ := p
    rw [hc] at h
    simp only [Option.some.injEq] at h
    subst h
    obtain ⟨b, hb, hbsz, hqb, hmax, hstrict⟩ := worstCand_some r s.chain j sz hc
    subst hbsz
    exact ⟨⟨b, hb, hqb, hmax, hstrict⟩, rfl⟩

theorem find_fit_worst_none (s : AllocState) (r : Nat)
    (h : (find_fit_worst s r).1 = none) :
    NoFit s.chain r ∧ find_fit_worst s r = (none, set_last_status s .ALLOC_OUT_OF_MEMORY) := by
  rw [find_fit_worst_eq] at h ⊢
  cases hc : worstCand r s.chain with
  | none => exact ⟨worstCand_none r s.chain hc, rfl⟩
  | some p =>
    obtain ⟨j, sz⟩ := p
    rw [hc] at h
    exact Option.noConfusion h

theorem pickFit_some (s : AllocState) (r i : Nat) (s₁ : AllocState)
    (h : pickFit s r = (some i, s₁)) :
    s₁ = set_last_status s .ALLOC_SUCCESS ∧
    ∃ F, s.chain.get? i = some F ∧ F.free = true ∧ r ≤ F.size := by
  unfold pickFit at h
  cases hst : s.current_strategy <;> rw [hst] at h <;> dsimp only at h
  · have h1 : (find_fit_first s r).1 = some i := by rw [h]
    obtain ⟨⟨b, hb, hqb, -⟩, heq⟩ := find_fit_first_some s r i h1
    rw [heq] at h
    exact ⟨(Prod.ext_iff.mp h).2.symm, b, hb, hqb.1, hqb.2⟩
  · have h1 : (find_fit_best s r).1 = some i := by rw [h]
    obtain ⟨⟨b, hb, hqb, -⟩, heq⟩ := find_fit_best_some s r i h1
    rw [heq] at h
    exact ⟨(Prod.ext_iff.mp h).2.symm, b, hb, hqb.1, hqb.2⟩
  · have h1 : (find_fit_worst s r).1 = some i := by rw [h]
    obtain ⟨⟨b, hb, hqb, -⟩, heq⟩ := find_fit_worst_some s r i h1
    rw [heq] at h
    exact ⟨(Prod.ext_iff.mp h).2.symm, b, hb, hqb.1, hqb.2⟩

theorem pickFit_none (s : AllocState) (r : Nat) (s₁ : AllocState)
    (h : pickFit s r = (none, s₁)) :
    s₁ = set_last_status s .ALLOC_OUT_OF_MEMORY := by
  unfold pickFit at h
  cases hst : s.current_strategy <;> rw [hst] at h <;> dsimp only at h
  · have h1 : (find_fit_first s r).1 = none := by rw [h]
    obtain ⟨-, heq⟩ := find_fit_first_none s r h1
    rw [heq] at h
    exact (Prod.ext_iff.mp h).2.symm
  · have h1 : (find_fit_best s r).1 = none := by rw [h]
    have heq := find_fit_best_none_frame s r h1
    rw [heq] at h
    exact (Prod.ext_iff.mp h).2.symm
  · have h1 : (find_fit_worst s r).1 = none := by rw [h]
    obtain ⟨-, heq⟩ := find_fit_worst_none s r h1
    rw [heq] at h
    exact (Prod.ext_iff.mp h).2.symm

/-- C5 (amended): provided every block size is strictly below `SIZE_MAX`
(the running-minimum sentinel of `find_fit_best`), the three placement
policies are exactly the spec's first/best/worst fits with ties broken by
the first block encountered in chain order, they return nothing and set
`ALLOC_OUT_OF_MEMORY` exactly when no free block qualifies (setting
`ALLOC_SUCCESS` otherwise), and none of them changes anything but the
status.  Without that proviso the claim fails, see the counterexample. -/
theorem c5_find_fit_characterization (s : AllocState) (r : Nat)
    (hsz : ∀ b ∈ s.chain, b.size < SIZE_MAX) :
    (∀ i, (find_fit_best s r).1 = some i → BestFitAt s.chain r i) ∧
    ((find_fit_best s r).1 = none → NoFit s.chain r) ∧
    (∀ i, (find_fit_worst s r).1 = some i → WorstFitAt s.chain r i) ∧
    ((find_fit_worst s r).1 = none → NoFit s.chain r) ∧
    (∀ i, (find_fit_first s r).1 = some i → FirstFitAt s.chain r i) ∧
    ((find_fit_first s r).1 = none → NoFit s.chain r) ∧
    (∀ fit ∈ [find_fit_first s r, find_fit_best s r, find_fit_worst s r],
      (fit.1 = none → fit.2 = set_last_status s .ALLOC_OUT_OF_MEMORY) ∧
      (fit.1 ≠ none → fit.2 = set_last_status s .ALLOC_SUCCESS) ∧
      fit.2.chain = s.chain ∧ fit.2.heap_size = s.heap_size ∧
      fit.2.mem = s.mem ∧ fit.2.current_strategy = s.current_strategy) := by
  refine ⟨fun i h => (find_fit_best_some s r i h).1,
          find_fit_best_none s r hsz,
          fun i h => (find_fit_worst_some s r i h).1,
          fun h => (find_fit_worst_none s r h).1,
          fun i h => (find_fit_first_some s r i h).1,
          fun h => (find_fit_first_none s r h).1, ?_⟩
  intro fit hfit
  have key : fit.2 = set_last_status s .ALLOC_OUT_OF_MEMORY ∨
      (fit.1 ≠ none ∧ fit.2 = set_last_status s .ALLOC_SUCCESS) := by
    simp only [List.mem_cons, List.not_mem_nil, or_false] at hfit
    rcases hfit with rfl | rfl | rfl
    · cases hr : (find_fit_first s r).1 with
      | none => exact Or.inl (congrArg Prod.snd (find_fit_first_none s r hr).2)
      | some i =>
        exact Or.inr ⟨by simp [hr], congrArg Prod.snd (find_fit_first_some s r i hr).2⟩
    · cases hr : (find_fit_best s r).1 with
      | none => exact Or.inl (congrArg Prod.snd (find_fit_best_none_frame s r hr))
      | some i =>
        exact Or.inr ⟨by simp [hr], congrArg Prod.snd (find_fit_best_some s r i hr).2⟩
    · cases hr : (find_fit_worst s r).1 with
      | none => exact Or.inl (congrArg Prod.snd (find_fit_worst_none s r hr).2)
      | some i =>
        exact Or.inr ⟨by simp [hr], congrArg Prod.snd (find_fit_worst_some s r i hr).2⟩
  rcases key with hk | ⟨hne, hk⟩
  · refine ⟨fun _ => hk, fun hne => ?_, by rw [hk]; rfl, by rw [hk]; rfl,
      by rw [hk]; rfl, by rw [hk]; rfl⟩
    exfalso
    apply hne
    by_contra hsome
    obtain ⟨i, hi⟩ := Option.ne_none_iff_exists'.mp hsome
    rcases (by simp only [List.mem_cons, List.not_mem_nil, or_false] at hfit; exact hfit :
        fit = find_fit_first s r ∨ fit = find_fit_best s r ∨ fit = find_fit_worst s r) with
      rfl | rfl | rfl
    · rw [(find_fit_first_some s r i hi).2] at hk
      exact AllocatorStatus.noConfusion (congrArg AllocState.last_status hk)
    · rw [(find_fit_best_some s r i hi).2] at hk
      exact AllocatorStatus.noConfusion (congrArg AllocState.last_status hk)
    · rw [(find_fit_worst_some s r i hi).2] at hk
      exact AllocatorStatus.noConfusion (congrArg AllocState.last_status hk)
  · exact ⟨fun hnone => absurd hnone hne, fun _ => hk, by rw [hk]; rfl, by rw [hk]; rfl,
      by rw [hk]; rfl, by rw [hk]; rfl⟩

/-- Witness for C5: in the two-block state `sW` the only free block (size 32
at position 1) is the best fit for a request of 32. -/
theorem c5_find_fit_characterization_witness : BestFitAt sW.chain 32 1 :=
  (c5_find_fit_characterization sW 32 (by decide)).1 1 (by decide)

/-!
Arithmetic helpers shared by the symbolic-execution theorems.
-/

theorem sub64_eq_sub (a c : Nat) (hc : c ≤ a) (ha : a < W) : sub64 a c = a - c := by
  simp only [sub64, W] at *
  omega

theorem align_idem (t : Nat) : align (align t) = align t := by
  simp only [align, ALIGNMENT, W]
  split_ifs <;> omega

/-- C3: `heap_free` follows the spec's five-step contract.  A null pointer
yields `ALLOC_INVALID_FREE`; a pointer at or beyond the water-mark yields
`ALLOC_HEAP_ERROR`; a payload pointer whose header is already free yields
`ALLOC_INVALID_FREE`; in all three error cases the chain, the water-mark and
the arena bytes are untouched (the result is `set_last_status` of the input
state).  Otherwise the header is marked free, the chain is coalesced and the
status becomes `ALLOC_SUCCESS` with the water-mark unchanged. -/
theorem c3_heap_free_contract (s : AllocState) :
    (heap_free s none = set_last_status s .ALLOC_INVALID_FREE) ∧
    (∀ p, s.heap_size ≤ p →
      heap_free s (some p) = set_last_status s .ALLOC_HEAP_ERROR) ∧
    (∀ p i b, p < s.heap_size →
      List.findIdx? (fun blk => blk.addr = p - headerSize) s.chain = some i →
      s.chain.get? i = some b → b.free = true →
      heap_free s (some p) = set_last_status s .ALLOC_INVALID_FREE) ∧
    (∀ p i b, p < s.heap_size →
      List.findIdx? (fun blk => blk.addr = p - headerSize) s.chain = some i →
      s.chain.get? i = some b → b.free = false →
      (heap_free s (some p)).last_status = .ALLOC_SUCCESS ∧
      (heap_free s (some p)).chain =
        coalesce_blocks (s.chain.take i ++ { b with free := true } :: s.chain.drop (i + 1)) i ∧
      (heap_free s (some p)).heap_size = s.heap_size) := by
  refine ⟨rfl, ?_, ?_, ?_⟩
  · intro p hp
    simp only [heap_free, validate_pointer]
    rw [if_pos (by simp [Nat.not_lt.mpr hp])]
  · intro p i b hp hfind hget hfree
    simp only [heap_free, validate_pointer]
    rw [if_neg (by simp [hp]), hfind]
    dsimp only
    rw [hget]
    dsimp only
    rw [if_pos hfree]
  · intro p i b hp hfind hget hfree
    refine ⟨?_, ?_, ?_⟩ <;>
      simp only [heap_free, validate_pointer] <;>
      rw [if_neg (by simp [hp]), hfind] <;>
      dsimp only <;>
      rw [hget] <;>
      dsimp only <;>
      rw [if_neg (by simp [hfree])] <;>
      try rfl

/-- Witness for C3: freeing the allocated block of `sW` succeeds, coalesces
it with its free successor, and keeps the water-mark. -/
theorem c3_heap_free_contract_witness :
    (heap_free sW (some 24)).last_status = .ALLOC_SUCCESS ∧
    (heap_free sW (some 24)).chain =
      coalesce_blocks
        (sW.chain.take 0 ++ { (⟨0, 64, false⟩ : BlockHeader) with free := true } ::
          sW.chain.drop 1) 0 ∧
    (heap_free sW (some 24)).heap_size = sW.heap_size :=
  (c3_heap_free_contract sW).2.2.2 24 0 ⟨0, 64, false⟩ (by decide) (by decide) (by decide) rfl

/-- C4 (amended): `split_block` on a null block sets `ALLOC_INVALID_OPERATION`
without mutation; on a block too small it sets `ALLOC_ERROR` without
mutation; on a block with `size ≥ align(total) + sizeof(header) + ALIGNMENT`
it writes the new free header at `addr + align(total)` with
`size = old − align(total)` and `next = old next`, updates the candidate to
`size = align(total)`, `free = false`, `next = new`, and — unlike the claim's
final clause — leaves the last status unchanged: the success path contains
no `set_last_status` call (see the counterexample). -/
theorem c4_split_block_characterization (s : AllocState) (total_size : Nat)
    (hnw : align total_size + headerSize + ALIGNMENT < W) :
    (split_block s none total_size = (none, set_last_status s .ALLOC_INVALID_OPERATION)) ∧
    (∀ i b, s.chain.get? i = some b → b.size < W →
      (b.size < align total_size + headerSize + ALIGNMENT →
        split_block s (some i) total_size = (none, set_last_status s .ALLOC_ERROR)) ∧
      (align total_size + headerSize + ALIGNMENT ≤ b.size →
        split_block s (some i) total_size =
          (some (b.addr + headerSize),
           { s with
             chain := s.chain.take i ++
               { addr := b.addr, size := align total_size, free := false } ::
               { addr := b.addr + align total_size, size := b.size - align total_size,
                 free := true } :: s.chain.drop (i + 1),
             mem := writeHeader (writeHeader s.mem b.addr) (b.addr + align total_size) }) ∧
        (split_block s (some i) total_size).2.last_status = s.last_status)) := by
  refine ⟨rfl, ?_⟩
  intro i b hget hbW
  have hmod : (align total_size + headerSize + ALIGNMENT) % W
      = align total_size + headerSize + ALIGNMENT := Nat.mod_eq_of_lt hnw
  constructor
  · intro hsmall
    simp only [split_block]
    rw [hget, hmod]
    dsimp only
    rw [if_pos hsmall]
  · intro hbig
    have hsub : sub64 b.size (align total_size) = b.size - align total_size :=
      sub64_eq_sub _ _ (by omega) hbW
    have heq : split_block s (some i) total_size =
        (some (b.addr + headerSize),
         { s with
           chain := s.chain.take i ++
             { addr := b.addr, size := align total_size, free := false } ::
             { addr := b.addr + align total_size, size := b.size - align total_size,
               free := true } :: s.chain.drop (i + 1),
           mem := writeHeader (writeHeader s.mem b.addr) (b.addr + align total_size) }) := by
      simp only [split_block]
      rw [hget, hmod]
      dsimp only
      rw [if_neg (by omega), hsub,
        if_neg (by simp only [headerSize, ALIGNMENT] at *; omega)]
    exact ⟨heq, by rw [heq]⟩

/-- Witness for C4: splitting the free 128-byte block of `sC4` at total 32
yields the amended effect, the stale status included. -/
theorem c4_split_block_characterization_witness :
    split_block sC4 (some 0) 32 =
      (some (0 + headerSize),
       { sC4 with
         chain := sC4.chain.take 0 ++
           { addr := 0, size := align 32, free := false } ::
           { addr := 0 + align 32, size := 128 - align 32, free := true } ::
             sC4.chain.drop 1,
         mem := writeHeader (writeHeader sC4.mem 0) (0 + align 32) }) ∧
    (split_block sC4 (some 0) 32).2.last_status = sC4.last_status :=
  ((c4_split_block_characterization sC4 32 (by decide)).2 0 ⟨0, 128, true⟩
    (by decide) (by decide)).2 (by decide)

/-- C10: the `second block size is too small` check of `split_block` fires
only after the new header's size field has been stored, but it is
unreachable whenever the preceding size guard has passed (and the sum
`align(total) + sizeof(header) + ALIGNMENT` does not wrap, which also keeps
the new-header address inside the arena): the remainder is then at least
`sizeof(header) + ALIGNMENT = 40 > 24 = sizeof(header)`, so the split always
completes and returns the payload pointer.  `heap_alloc` calls `split_block`
exactly under this guard with an already-aligned total
(`align (align t) = align t`), so no call from `heap_alloc` takes an error
return after the partial write. -/
theorem c10_split_second_check_unreachable (s : AllocState) (i : Nat) (b : BlockHeader)
    (total_size : Nat) (hget : s.chain.get? i = some b) (hbW : b.size < W)
    (hnw : align total_size + headerSize + ALIGNMENT < W)
    (hguard : ¬ b.size < (align total_size + headerSize + ALIGNMENT) % W) :
    headerSize < sub64 b.size (align total_size) ∧
    (split_block s (some i) total_size).1 = some (b.addr + headerSize) ∧
    align (align total_size) = align total_size := by
  have hmod : (align total_size + headerSize + ALIGNMENT) % W
      = align total_size + headerSize + ALIGNMENT := Nat.mod_eq_of_lt hnw
  rw [hmod] at hguard
  have hsub : sub64 b.size (align total_size) = b.size - align total_size :=
    sub64_eq_sub _ _ (by omega) hbW
  have hsecond : headerSize < sub64 b.size (align total_size) := by
    rw [hsub]
    simp only [headerSize, ALIGNMENT] at *
    omega
  refine ⟨hsecond, ?_, align_idem total_size⟩
  simp only [split_block]
  rw [hget, hmod]
  dsimp only
  rw [if_neg hguard, if_neg (by omega)]

/-- Witness for C10: the guard holds for the 128-byte free block of `sC4`
with total 32, and the split completes. -/
theorem c10_split_second_check_unreachable_witness :
    headerSize < sub64 128 (align 32) ∧
    (split_block sC4 (some 0) 32).1 = some (0 + headerSize) ∧
    align (align 32) = align 32 :=
  c10_split_second_check_unreachable sC4 0 ⟨0, 128, true⟩ 32
    (by decide) (by decide) (by decide) (by decide)

/-- C2 (amended): for a valid payload pointer `p` of chain block `curr` and
`n > 0`, with `total_new = align(n + sizeof(header))`: Case A — if
`curr.size ≥ total_new`, `heap_realloc` returns `p` unchanged with
`ALLOC_SUCCESS`, splitting off a free remainder exactly when
`curr.size > total_new + sizeof(header) + ALIGNMENT` (strictly, not at
residue exactly 40; see the counterexample); Case B — otherwise, if the
successor exists, is free, and `curr.size + next.size + sizeof(header) ≥
total_new` (the code adds one header size to the claim's sum), the successor
is absorbed with combined size `curr.size + next.size + sizeof(header)`, the
same strict split rule is applied, and `p` is returned with `ALLOC_SUCCESS`.
The last two conjuncts state the split rule itself: no mutation at or below
the threshold and the exact two-block replacement above it. -/
theorem c2_realloc_in_place_characterization (s : AllocState) (p n i : Nat)
    (curr : BlockHeader) (hn : n ≠ 0) (hp : p < s.heap_size)
    (hfind : List.findIdx? (fun blk => blk.addr = p - headerSize) s.chain = some i)
    (hget : s.chain.get? i = some curr) :
    (align ((n + headerSize) % W) ≤ curr.size →
      heap_realloc s (some p) n =
        (some p, set_last_status
          (reallocMaybeSplit s i curr (align ((n + headerSize) % W))) .ALLOC_SUCCESS)) ∧
    (∀ nxt, curr.size < align ((n + headerSize) % W) →
      s.chain.get? (i + 1) = some nxt → nxt.free = true →
      align ((n + headerSize) % W) ≤ (curr.size + nxt.size + headerSize) % W →
      heap_realloc s (some p) n =
        (some p, set_last_status
          (reallocMaybeSplit
            { s with
              chain := s.chain.take i ++
                { addr := curr.addr, size := (curr.size + nxt.size + headerSize) % W,
                  free := curr.free } :: s.chain.drop (i + 2),
              mem := writeHeader s.mem curr.addr }
            i
            { addr := curr.addr, size := (curr.size + nxt.size + headerSize) % W,
              free := curr.free }
            (align ((n + headerSize) % W))) .ALLOC_SUCCESS)) ∧
    (∀ (s' : AllocState) (j : Nat) (b : BlockHeader) (T : Nat),
      T + headerSize + ALIGNMENT < W → b.size < W →
      (b.size ≤ T + headerSize + ALIGNMENT → reallocMaybeSplit s' j b T = s') ∧
      (T + headerSize + ALIGNMENT < b.size →
        (reallocMaybeSplit s' j b T).chain =
          s'.chain.take j ++ { addr := b.addr, size := T, free := b.free } ::
            { addr := b.addr + T, size := b.size - T, free := true } ::
              s'.chain.drop (j + 1))) := by
  refine ⟨?_, ?_, ?_⟩
  · intro hA
    simp only [heap_realloc]
    rw [if_neg hn, if_neg (by simp [validate_pointer, hp]), hfind]
    dsimp only
    rw [hget]
    dsimp only
    rw [if_pos hA]
  · intro nxt hB hnxt hfree habs
    simp only [heap_realloc]
    rw [if_neg hn, if_neg (by simp [validate_pointer, hp]), hfind]
    dsimp only
    rw [hget]
    dsimp only
    rw [if_neg (by omega), hnxt]
    dsimp only
    rw [if_pos ⟨hfree, habs⟩]
  · intro s' j b T hTW hbW
    have hmod : (T + headerSize + ALIGNMENT) % W = T + headerSize + ALIGNMENT :=
      Nat.mod_eq_of_lt hTW
    constructor
    · intro hle
      simp only [reallocMaybeSplit]
      rw [hmod, if_neg (by omega)]
    · intro hlt
      have hsub : sub64 b.size T = b.size - T := sub64_eq_sub _ _ (by omega) hbW
      simp only [reallocMaybeSplit]
      rw [hmod, if_pos hlt, hsub]

/-- Witness for C2: resizing the 64-byte allocated block of `sW` to 20 bytes
(total 48) takes case A; the residue 16 is below the split threshold, so the
chain is unchanged and `p` is returned with `ALLOC_SUCCESS`. -/
theorem c2_realloc_in_place_characterization_witness :
    heap_realloc sW (some 24) 20 =
      (some 24, set_last_status
        (reallocMaybeSplit sW 0 ⟨0, 64, false⟩ (align ((20 + headerSize) % W)))
        .ALLOC_SUCCESS) :=
  (c2_realloc_in_place_characterization sW 24 20 0 ⟨0, 64, false⟩
    (by decide) (by decide) (by decide) (by decide)).1 (by decide)

/-- C9: the seven read-only interface functions return the state they were
given unchanged — chain, water-mark, arena bytes, strategy and `last_status`
alike — while, by contrast, `check_heap_integrity` and the placement
policies do overwrite `last_status` (shown at the initial state). -/
theorem c9_readonly_interface_frame :
    (∀ s : AllocState,
      (get_alloc_count s).2 = s ∧
      (get_free_block_count s).2 = s ∧
      (get_used_heap_size s).2 = s ∧
      (get_free_heap_size s).2 = s ∧
      ( get_fragmentation_ratio s).2 = s ∧
      (get_last_status s).2 = s ∧
      (∀ ptr, (validate_pointer s ptr).2 = s)) ∧
    (check_heap_integrity initState).2.last_status ≠ initState.last_status ∧
    (find_fit_first initState 16).2.last_status ≠ initState.last_status := by
  refine ⟨?_, by decide, by decide⟩
  intro s
  refine ⟨rfl, rfl, rfl, rfl, ?_, rfl, ?_⟩
  · simp only [ get_fragmentation_ratio]
    split <;> rfl
  · intro ptr
    cases ptr <;> rfl

/-- Witness for C9: the frame equations instantiated at the state `sW`. -/
theorem c9_readonly_interface_frame_witness :
    (get_alloc_count sW).2 = sW ∧ ( get_fragmentation_ratio sW).2 = sW :=
  ⟨(c9_readonly_interface_frame.1 sW).1, (c9_readonly_interface_frame.1 sW).2.2.2.2.1⟩

/-!
Pointwise lemmas about the byte-map operations and list-surgery lemmas used
to reason about the relocation path of `heap_realloc`.
-/

theorem writeHeader_outside (m : Nat → Nat) (a x : Nat)
    (h : x < a ∨ a + headerSize ≤ x) : writeHeader m a x = m x := by
  simp only [writeHeader]
  rw [if_neg (by omega)]

theorem memcpy_at (m : Nat → Nat) (dst src len x : Nat) (h : x < len) :
    memcpy m dst src len (dst + x) = m (src + x) := by
  simp only [memcpy]
  rw [if_pos (by omega)]
  congr 1
  omega

theorem get?_some_lt {α : Type} (l : List α) (i : Nat) (x : α)
    (h : l.get? i = some x) : i < l.length := by
  by_contra hc
  rw [List.get?_eq_none.mpr (by omega)] at h
  exact Option.noConfusion h

theorem get?_replace1 {α : Type} (l : List α) (i : Nat) (x : α) (hi : i < l.length) :
    ∀ j, (l.take i ++ x :: l.drop (i + 1)).get? j =
      if j = i then some x else l.get? j := by
  intro j
  have hlen : (l.take i).length = i := by
    rw [List.length_take]
    omega
  by_cases hj : j < i
  · rw [if_neg (by omega), List.get?_append (by omega), List.get?_take hj]
  · by_cases hje : j = i
    · subst hje
      rw [if_pos rfl, List.get?_append_right (by omega)]
      rw [hlen, Nat.sub_self]
      rfl
    · rw [if_neg hje, List.get?_append_right (by omega), hlen]
      have h1 : j - i = (j - i - 1) + 1 := by omega
      rw [h1, List.get?_cons_succ, List.get?_drop]
      congr 1
      omega

theorem get?_split2 {α : Type} (l : List α) (i : Nat) (x y : α) (hi : i < l.length) :
    ∀ j, (l.take i ++ x :: y :: l.drop (i + 1)).get? j =
      if j < i then l.get? j
      else if j = i then some x
      else if j = i + 1 then some y
      else l.get? (j - 1) := by
  intro j
  have hlen : (l.take i).length = i := by
    rw [List.length_take]
    omega
  by_cases hj : j < i
  · rw [if_pos hj, List.get?_append (by omega), List.get?_take hj]
  · rw [if_neg hj]
    by_cases hje : j = i
    · subst hje
      rw [if_pos rfl, List.get?_append_right (by omega), hlen, Nat.sub_self]
      rfl
    · rw [if_neg hje]
      by_cases hje1 : j = i + 1
      · subst hje1
        rw [if_pos rfl, List.get?_append_right (by omega), hlen]
        have h1 : i + 1 - i = 1 := by omega
        rw [h1]
        rfl
      · rw [if_neg hje1, List.get?_append_right (by omega), hlen]
        have h1 : j - i = (j - i - 2) + 2 := by omega
        rw [h1, List.get?_cons_succ, List.get?_cons_succ, List.get?_drop]
        congr 1
        omega

theorem take_of_replace1 {α : Type} (l : List α) (i : Nat) (x : α) (hi : i < l.length) :
    (l.take i ++ x :: l.drop (i + 1)).take i = l.take i := by
  have hlen : (l.take i).length = i := by
    rw [List.length_take]
    omega
  rw [List.take_append_of_le_length (by omega), List.take_take]
  congr 1
  omega

theorem drop_of_replace1 {α : Type} (l : List α) (i : Nat) (x : α) (hi : i < l.length) :
    (l.take i ++ x :: l.drop (i + 1)).drop (i + 1) = l.drop (i + 1) := by
  have hlen : (l.take i).length = i := by
    rw [List.length_take]
    omega
  rw [List.drop_append_eq_append_drop]
  rw [List.drop_eq_nil_of_le (by omega), hlen]
  have h1 : i + 1 - i = 1 := by omega
  rw [h1]
  simp

/-!
Consequences of `chainOkB`: bounds, pairwise disjointness and uniqueness of
header addresses, and preservation under the chain surgeries the allocator
performs (marking, splitting, appending at the water-mark).
-/

theorem chainOkB_cons (a : Nat) (b : BlockHeader) (rest : List BlockHeader) :
    chainOkB a (b :: rest) = true ↔
      b.addr = a ∧ 32 ≤ b.size ∧ b.size % ALIGNMENT = 0 ∧
        chainOkB (a + b.size) rest = true := by
  simp [chainOkB, Bool.and_eq_true, decide_eq_true_eq, and_assoc]

theorem chainOk_get :
    ∀ (l : List BlockHeader) (a i : Nat) (b : BlockHeader),
      chainOkB a l = true → l.get? i = some b →
      a ≤ b.addr ∧ 32 ≤ b.size ∧ b.size % ALIGNMENT = 0 ∧
        b.addr + b.size ≤ a + chainSum l := by
  intro l
  induction l with
  | nil => intro a i b _ hget; exact Option.noConfusion hget
  | cons c rest ih =>
    intro a i b hok hget
    obtain ⟨hca, hcs, hcm, hrest⟩ := (chainOkB_cons a c rest).mp hok
    cases i with
    | zero =>
      rw [List.get?_cons_zero, Option.some.injEq] at hget
      subst hget
      refine ⟨by omega, hcs, hcm, ?_⟩
      simp only [chainSum, List.map_cons, List.sum_cons]
      omega
    | succ i' =>
      rw [List.get?_cons_succ] at hget
      obtain ⟨h1, h2, h3, h4⟩ := ih (a + c.size) i' b hrest hget
      refine ⟨by omega, h2, h3, ?_⟩
      simp only [chainSum, List.map_cons, List.sum_cons] at *
      omega

theorem chainOk_disjoint :
    ∀ (l : List BlockHeader) (a i j : Nat) (bi bj : BlockHeader),
      chainOkB a l = true → l.get? i = some bi → l.get? j = some bj → i < j →
      bi.addr + bi.size ≤ bj.addr := by
  intro l
  induction l with
  | nil => intro a i j bi bj _ hgi; exact Option.noConfusion hgi
  | cons c rest ih =>
    intro a i j bi bj hok hgi hgj hij
    obtain ⟨hca, hcs, hcm, hrest⟩ := (chainOkB_cons a c rest).mp hok
    cases i with
    | zero =>
      rw [List.get?_cons_zero, Option.some.injEq] at hgi
      subst hgi
      obtain ⟨j', rfl⟩ : ∃ j', j = j' + 1 := ⟨j - 1, by omega⟩
      rw [List.get?_cons_succ] at hgj
      obtain ⟨h1, -, -, -⟩ := chainOk_get rest (a + c.size) j' bj hrest hgj
      omega
    | succ i' =>
      obtain ⟨j', rfl⟩ : ∃ j', j = j' + 1 := ⟨j - 1, by omega⟩
      rw [List.get?_cons_succ] at hgi hgj
      exact ih (a + c.size) i' j' bi bj hrest hgi hgj (by omega)

theorem chainOk_addr_lt (l : List BlockHeader) (a i j : Nat) (bi bj : BlockHeader)
    (hok : chainOkB a l = true) (hgi : l.get? i = some bi) (hgj : l.get? j = some bj)
    (hij : i < j) : bi.addr < bj.addr := by
  have h1 := chainOk_disjoint l a i j bi bj hok hgi hgj hij
  have h2 := chainOk_get l a i bi hok hgi
  omega

theorem chainOk_findIdx (l : List BlockHeader) (a i : Nat) (b : BlockHeader)
    (hok : chainOkB a l = true) (hget : l.get? i = some b) :
    List.findIdx? (fun blk => blk.addr = b.addr) l = some i := by
  rw [List.findIdx?_eq_some_iff_getElem]
  have hi : i < l.length := get?_some_lt l i b hget
  refine ⟨hi, ?_, ?_⟩
  · have : l[i] = b := by
      have := List.getElem?_eq_getElem hi
      rw [← List.get?_eq_getElem?, hget] at this
      exact (Option.some.injEq .. ▸ this.symm)
    rw [this]
    simp
  · intro j hji
    have hjl : j < l.length := by omega
    have hj : l.get? j = some l[j] := by
      rw [List.get?_eq_getElem?, List.getElem?_eq_getElem]
    have := chainOk_addr_lt l a j i l[j] b hok hj hget hji
    simp only [decide_eq_true_eq]
    omega

theorem chainOk_addr_inj (l : List BlockHeader) (a i j : Nat) (bi bj : BlockHeader)
    (hok : chainOkB a l = true) (hgi : l.get? i = some bi) (hgj : l.get? j = some bj)
    (haddr : bi.addr = bj.addr) : i = j := by
  by_contra hne
  rcases Nat.lt_or_ge i j with h | h
  · have := chainOk_addr_lt l a i j bi bj hok hgi hgj h
    omega
  · have hji : j < i := by omega
    have := chainOk_addr_lt l a j i bj bi hok hgj hgi hji
    omega

theorem payload_header_disjoint (l : List BlockHeader) (a k : Nat) (bk t : BlockHeader)
    (hok : chainOkB a l = true) (hgk : l.get? k = some bk) (ht : t ∈ l)
    (x : Nat) (hx1 : bk.addr + headerSize ≤ x) (hx2 : x < bk.addr + bk.size) :
    x < t.addr ∨ t.addr + headerSize ≤ x := by
  obtain ⟨j, hj⟩ := List.get?_of_mem ht
  by_cases hjk : j = k
  · subst hjk
    rw [hj] at hgk
    obtain rfl : t = bk := by cases hgk; rfl
    right
    omega
  · rcases Nat.lt_or_ge j k with h | h
    · have hd := chainOk_disjoint l a j k t bk hok hj hgk h
      have hs := chainOk_get l a j t hok hj
      right
      simp only [headerSize] at *
      omega
    · have hk : k < j := by omega
      have hd := chainOk_disjoint l a k j bk t hok hgk hj hk
      left
      omega

theorem align_no_wrap (a : Nat) (h : a + ALIGNMENT ≤ W) :
    a ≤ align a ∧ align a < a + ALIGNMENT ∧ align a % ALIGNMENT = 0 := by
  simp only [align, ALIGNMENT, W] at *
  split_ifs <;> constructor <;> try constructor
  all_goals omega

theorem chainOk_replace1 :
    ∀ (l : List BlockHeader) (a i : Nat) (b b' : BlockHeader),
      chainOkB a l = true → l.get? i = some b →
      b'.addr = b.addr → b'.size = b.size →
      chainOkB a (l.take i ++ b' :: l.drop (i + 1)) = true := by
  intro l
  induction l with
  | nil => intro a i b b' _ hget; exact Option.noConfusion hget
  | cons c rest ih =>
    intro a i b b' hok hget haddr hsize
    obtain ⟨hca, hcs, hcm, hrest⟩ := (chainOkB_cons a c rest).mp hok
    cases i with
    | zero =>
      rw [List.get?_cons_zero, Option.some.injEq] at hget
      subst hget
      simp only [List.take_zero, List.drop_one, List.nil_append, List.tail_cons]
      exact (chainOkB_cons a b' rest).mpr ⟨by omega, by omega, by rw [hsize]; exact hcm,
        by rw [hsize]; exact hrest⟩
    | succ i' =>
      rw [List.get?_cons_succ] at hget
      simp only [List.take_succ_cons, List.drop_succ_cons, List.cons_append]
      exact (chainOkB_cons a c _).mpr ⟨hca, hcs, hcm, ih (a + c.size) i' b b' hrest hget haddr hsize⟩

theorem chainOk_split :
    ∀ (l : List BlockHeader) (a f : Nat) (F : BlockHeader) (T : Nat) (ffree : Bool),
      chainOkB a l = true → l.get? f = some F →
      T % ALIGNMENT = 0 → 32 ≤ T → 32 ≤ F.size - T → T ≤ F.size →
      chainOkB a (l.take f ++ { addr := F.addr, size := T, free := ffree } ::
        { addr := F.addr + T, size := F.size - T, free := true } :: l.drop (f + 1)) = true := by
  intro l
  induction l with
  | nil => intro a f F T ffree _ hget; exact Option.noConfusion hget
  | cons c rest ih =>
    intro a f F T ffree hok hget hT16 hT32 hrem hTle
    obtain ⟨hca, hcs, hcm, hrest⟩ := (chainOkB_cons a c rest).mp hok
    cases f with
    | zero =>
      rw [List.get?_cons_zero, Option.some.injEq] at hget
      subst hget
      simp only [List.take_zero, List.drop_one, List.nil_append, List.tail_cons]
      refine (chainOkB_cons a _ _).mpr ⟨by simp; omega, by simpa using hT32, by simpa using hT16, ?_⟩
      refine (chainOkB_cons _ _ _).mpr ⟨by simp; omega, by simpa using hrem, ?_, ?_⟩
      · simp only [ALIGNMENT] at hcm hT16 ⊢
        omega
      · simp only
        have h2 : a + T + (c.size - T) = a + c.size := by omega
        rw [h2]
        exact hrest
    | succ f' =>
      rw [List.get?_cons_succ] at hget
      simp only [List.take_succ_cons, List.drop_succ_cons, List.cons_append]
      exact (chainOkB_cons a c _).mpr ⟨hca, hcs, hcm,
        ih (a + c.size) f' F T ffree hrest hget hT16 hT32 hrem hTle⟩

theorem chainSum_append (l : List BlockHeader) (b : BlockHeader) :
    chainSum (l ++ [b]) = chainSum l + b.size := by
  simp [chainSum]

theorem chainOk_append :
    ∀ (l : List BlockHeader) (a : Nat) (nb : BlockHeader),
      chainOkB a l = true → nb.addr = a + chainSum l →
      32 ≤ nb.size → nb.size % ALIGNMENT = 0 →
      chainOkB a (l ++ [nb]) = true := by
  intro l
  induction l with
  | nil =>
    intro a nb _ haddr hs hm
    simp only [List.nil_append]
    refine (chainOkB_cons a nb []).mpr ⟨?_, hs, hm, rfl⟩
    simp only [chainSum, List.map_nil, List.sum_nil] at haddr
    omega
  | cons c rest ih =>
    intro a nb hok haddr hs hm
    obtain ⟨hca, hcs, hcm, hrest⟩ := (chainOkB_cons a c rest).mp hok
    simp only [List.cons_append]
    refine (chainOkB_cons a c _).mpr ⟨hca, hcs, hcm, ?_⟩
    refine ih (a + c.size) nb hrest ?_ hs hm
    simp only [chainSum, List.map_cons, List.sum_cons] at haddr ⊢
    omega

theorem split_block_success (s : AllocState) (i : Nat) (b : BlockHeader) (total : Nat)
    (hget : s.chain.get? i = some b) (hbW : b.size < W)
    (hnw : align total + headerSize + ALIGNMENT < W)
    (hbig : align total + headerSize + ALIGNMENT ≤ b.size) :
    split_block s (some i) total =
      (some (b.addr + headerSize),
       { s with
         chain := s.chain.take i ++
           { addr := b.addr, size := align total, free := false } ::
           { addr := b.addr + align total, size := b.size - align total, free := true } ::
             s.chain.drop (i + 1),
         mem := writeHeader (writeHeader s.mem b.addr) (b.addr + align total) }) := by
  have hmod : (align total + headerSize + ALIGNMENT) % W = align total + headerSize + ALIGNMENT :=
    Nat.mod_eq_of_lt hnw
  have hsub : sub64 b.size (align total) = b.size - align total :=
    sub64_eq_sub _ _ (by omega) hbW
  simp only [split_block]
  rw [hget, hmod]
  dsimp only
  rw [if_neg (by omega), hsub,
    if_neg (by simp only [headerSize, ALIGNMENT] at *; omega)]

theorem allocFound_eq_split (s₁ : AllocState) (i total : Nat) (F : BlockHeader)
    (hget : s₁.chain.get? i = some F) (hFW : F.size < W)
    (halig : align total = total)
    (hnw : total + headerSize + ALIGNMENT < W)
    (hsc : total + headerSize + ALIGNMENT ≤ F.size) :
    allocFound s₁ i total =
      (some (F.addr + headerSize),
       set_last_status
         { s₁ with
           chain := s₁.chain.take i ++
             { addr := F.addr, size := total, free := false } ::
             { addr := F.addr + total, size := F.size - total, free := true } ::
               s₁.chain.drop (i + 1),
           mem := writeHeader (writeHeader (writeHeader s₁.mem F.addr) F.addr)
             (F.addr + total) } .ALLOC_SUCCESS) := by
  have hi : i < s₁.chain.length := get?_some_lt _ _ _ hget
  have hmod : (total + headerSize + ALIGNMENT) % W = total + headerSize + ALIGNMENT :=
    Nat.mod_eq_of_lt hnw
  simp only [allocFound]
  rw [hget]
  dsimp only
  rw [hmod, if_pos hsc]
  have hget2 :
      (s₁.chain.take i ++ { F with free := false } :: s₁.chain.drop (i + 1)).get? i
        = some { F with free := false } := by
    rw [get?_replace1 _ _ _ hi i, if_pos rfl]
  rw [split_block_success
    { s₁ with
      chain := s₁.chain.take i ++ { F with free := false } :: s₁.chain.drop (i + 1),
      mem := writeHeader s₁.mem F.addr }
    i { F with free := false } total hget2 hFW (by rw [halig]; omega)
    (by rw [halig]; simpa using hsc)]
  dsimp only
  rw [Prod.mk.injEq]
  refine ⟨rfl, ?_⟩
  simp only [set_last_status]
  congr 1
  · rw [take_of_replace1 _ _ _ hi, drop_of_replace1 _ _ _ hi, halig]
  · rw [halig]

theorem allocFound_eq_whole (s₁ : AllocState) (i total : Nat) (F : BlockHeader)
    (hget : s₁.chain.get? i = some F)
    (hnw : total + headerSize + ALIGNMENT < W)
    (hsc : F.size < total + headerSize + ALIGNMENT) :
    allocFound s₁ i total =
      (some (F.addr + headerSize),
       set_last_status
         { s₁ with
           chain := s₁.chain.take i ++ { F with free := false } :: s₁.chain.drop (i + 1),
           mem := writeHeader s₁.mem F.addr } .ALLOC_SUCCESS) := by
  have hmod : (total + headerSize + ALIGNMENT) % W = total + headerSize + ALIGNMENT :=
    Nat.mod_eq_of_lt hnw
  simp only [allocFound]
  rw [hget]
  dsimp only
  rw [hmod, if_neg (by omega)]

theorem allocExtend_eq (s₁ : AllocState) (total : Nat)
    (hc1 : ¬ HEAP_CAPACITY < (s₁.heap_size + total) % W)
    (hc2 : s₁.heap_size % ALIGNMENT = 0) :
    allocExtend s₁ total =
      (some (s₁.heap_size + headerSize),
       set_last_status
         { s₁ with
           chain := s₁.chain ++ [{ addr := s₁.heap_size, size := total, free := false }],
           heap_size := (s₁.heap_size + total) % W,
           mem := writeHeader
             (match s₁.chain.getLast? with
              | some t => writeHeader s₁.mem t.addr
              | none => s₁.mem) s₁.heap_size } .ALLOC_SUCCESS) := by
  simp only [allocExtend]
  rw [if_neg hc1, if_neg (by omega)]

theorem set_last_status_chain (s : AllocState) (st : AllocatorStatus) :
    (set_last_status s st).chain = s.chain := rfl

theorem set_last_status_mem (s : AllocState) (st : AllocatorStatus) :
    (set_last_status s st).mem = s.mem := rfl

theorem set_last_status_heap_size (s : AllocState) (st : AllocatorStatus) :
    (set_last_status s st).heap_size = s.heap_size := rfl

theorem chainSum_align :
    ∀ (l : List BlockHeader) (a : Nat), chainOkB a l = true → chainSum l % ALIGNMENT = 0 := by
  intro l
  induction l with
  | nil => intro a _; simp [chainSum]
  | cons c rest ih =>
    intro a hok
    obtain ⟨-, -, hcm, hrest⟩ := (chainOkB_cons a c rest).mp hok
    have h1 := ih (a + c.size) hrest
    simp only [chainSum, List.map_cons, List.sum_cons] at *
    simp only [ALIGNMENT] at *
    omega

theorem heap_alloc_post (s : AllocState) (n q : Nat) (s' : AllocState)
    (hWF : WF s = true) (hnW : n + headerSize + 2 * ALIGNMENT ≤ W)
    (halloc : heap_alloc s n = (some q, s')) :
    chainOkB 0 s'.chain = true ∧
    (∀ k bk x, s.chain.get? k = some bk → bk.free = false →
      bk.addr + headerSize ≤ x → x < bk.addr + bk.size → s'.mem x = s.mem x) ∧
    (∀ k bk, s.chain.get? k = some bk → bk.free = false →
      ∃ k', s'.chain.get? k' = some bk) ∧
    (∀ e ∈ s'.chain, e.addr + headerSize ≤ q ∨
      q + (align (n + headerSize) - headerSize) ≤ e.addr) ∧
    (∀ k bk, s.chain.get? k = some bk → bk.free = false → q ≠ bk.addr + headerSize) := by
  have hWF' := hWF
  simp only [WF, Bool.and_eq_true, decide_eq_true_eq] at hWF'
  obtain ⟨⟨hok, hsum⟩, hcap⟩ := hWF'
  have h24 : headerSize = 24 := rfl
  have h16 : ALIGNMENT = 16 := rfl
  have hW2 : W = 18446744073709551616 := by norm_num [W]
  have hCAP : HEAP_CAPACITY = 640000 := rfl
  have hn0 : n ≠ 0 := by
    intro h
    subst h
    simp only [heap_alloc, if_pos rfl] at halloc
    exact absurd (congrArg Prod.fst halloc) (by simp)
  have hmodn : (n + headerSize) % W = n + headerSize :=
    Nat.mod_eq_of_lt (by omega)
  obtain ⟨hT1, hT2, hT3⟩ := align_no_wrap (n + headerSize) (by omega)
  have hT3' : align (n + headerSize) % 16 = 0 := by rw [← h16]; exact hT3
  have hT32 : 32 ≤ align (n + headerSize) := by omega
  simp only [heap_alloc] at halloc
  rw [if_neg hn0, hmodn] at halloc
  cases hpick : pickFit s (align (n + headerSize)) with
  | mk o s₁ =>
  rw [hpick] at halloc
  cases o with
  | some f =>
    obtain ⟨hs₁, F, hF, hFfree, hFsize⟩ := pickFit_some s _ f s₁ hpick
    subst hs₁
    dsimp only at halloc
    obtain ⟨-, hF32, hF16, hFend⟩ := chainOk_get s.chain 0 f F hok hF
    have hFW : F.size < W := by omega
    have hfi : f < s.chain.length := get?_some_lt _ _ _ hF
    have hnw2 : align (n + headerSize) + headerSize + ALIGNMENT < W := by omega
    have hFs : (set_last_status s .ALLOC_SUCCESS).chain.get? f = some F := hF
    by_cases hsc : align (n + headerSize) + headerSize + ALIGNMENT ≤ F.size
    · rw [allocFound_eq_split _ f _ F hFs hFW (align_idem _) hnw2 hsc] at halloc
      have hq : q = F.addr + headerSize := by
        have h1 := (Prod.ext_iff.mp halloc).1
        simp only [Option.some.injEq] at h1
        exact h1.symm
      have hs' : s' = _ := (Prod.ext_iff.mp halloc).2.symm
      have hchain : s'.chain = s.chain.take f ++
          { addr := F.addr, size := align (n + headerSize), free := false } ::
          { addr := F.addr + align (n + headerSize),
            size := F.size - align (n + headerSize), free := true } ::
            s.chain.drop (f + 1) := by
        rw [hs']
        rfl
      have hmem : s'.mem = writeHeader (writeHeader (writeHeader s.mem F.addr) F.addr)
          (F.addr + align (n + headerSize)) := by
        rw [hs']
        rfl
      subst hq
      refine ⟨?_, ?_, ?_, ?_, ?_⟩
      · rw [hchain]
        exact chainOk_split s.chain 0 f F (align (n + headerSize)) false hok hF hT3 hT32
          (by omega) (by omega)
      · intro k bk x hk hbkfree hx1 hx2
        have hkf : k ≠ f := by
          intro h
          subst h
          rw [hF, Option.some.injEq] at hk
          subst hk
          rw [hFfree] at hbkfree
          exact Bool.noConfusion hbkfree
        rw [hmem]
        rcases Nat.lt_or_ge k f with hlt | hge
        · have hd := chainOk_disjoint s.chain 0 k f bk F hok hk hF hlt
          rw [writeHeader_outside _ _ _ (by left; omega),
            writeHeader_outside _ _ _ (by left; omega),
            writeHeader_outside _ _ _ (by left; omega)]
        · have hlt2 : f < k := by omega
          have hd := chainOk_disjoint s.chain 0 f k F bk hok hF hk hlt2
          rw [writeHeader_outside _ _ _ (by right; omega),
            writeHeader_outside _ _ _ (by right; omega),
            writeHeader_outside _ _ _ (by right; omega)]
      · intro k bk hk hbkfree
        have hkf : k ≠ f := by
          intro h
          subst h
          rw [hF, Option.some.injEq] at hk
          subst hk
          rw [hFfree] at hbkfree
          exact Bool.noConfusion hbkfree
        rcases Nat.lt_or_ge k f with hlt | hge
        · refine ⟨k, ?_⟩
          rw [hchain, get?_split2 _ _ _ _ hfi k, if_pos hlt]
          exact hk
        · refine ⟨k + 1, ?_⟩
          rw [hchain, get?_split2 _ _ _ _ hfi (k + 1),
            if_neg (by omega), if_neg (by omega), if_neg (by omega)]
          simpa using hk
      · intro e he
        rw [hchain] at he
        obtain ⟨j, hj⟩ := List.get?_of_mem he
        rw [get?_split2 _ _ _ _ hfi j] at hj
        by_cases h1 : j < f
        · rw [if_pos h1] at hj
          have hd := chainOk_disjoint s.chain 0 j f e F hok hj hF h1
          have hB := chainOk_get s.chain 0 j e hok hj
          left
          omega
        · rw [if_neg h1] at hj
          by_cases h2 : j = f
          · rw [if_pos h2, Option.some.injEq] at hj
            subst hj
            left
            simp
          · rw [if_neg h2] at hj
            by_cases h3 : j = f + 1
            · rw [if_pos h3, Option.some.injEq] at hj
              subst hj
              right
              simp only
              omega
            · rw [if_neg h3] at hj
              have hfj : f < j - 1 := by omega
              have hd := chainOk_disjoint s.chain 0 f (j - 1) F e hok hF hj hfj
              right
              omega
      · intro k bk hk hbkfree
        have hkf : k ≠ f := by
          intro h
          subst h
          rw [hF, Option.some.injEq] at hk
          subst hk
          rw [hFfree] at hbkfree
          exact Bool.noConfusion hbkfree
        intro hqe
        have : F.addr = bk.addr := by omega
        exact hkf ((chainOk_addr_inj s.chain 0 k f bk F hok hk hF this.symm))
    · rw [allocFound_eq_whole _ f _ F hFs hnw2 (by omega)] at halloc
      have hq : q = F.addr + headerSize := by
        have h1 := (Prod.ext_iff.mp halloc).1
        simp only [Option.some.injEq] at h1
        exact h1.symm
      have hs' : s' = _ := (Prod.ext_iff.mp halloc).2.symm
      have hchain : s'.chain = s.chain.take f ++ { F with free := false } ::
          s.chain.drop (f + 1) := by
        rw [hs']
        rfl
      have hmem : s'.mem = writeHeader s.mem F.addr := by
        rw [hs']
        rfl
      subst hq
      refine ⟨?_, ?_, ?_, ?_, ?_⟩
      · rw [hchain]
        exact chainOk_replace1 s.chain 0 f F { F with free := false } hok hF rfl rfl
      · intro k bk x hk hbkfree hx1 hx2
        have hkf : k ≠ f := by
          intro h
          subst h
          rw [hF, Option.some.injEq] at hk
          subst hk
          rw [hFfree] at hbkfree
          exact Bool.noConfusion hbkfree
        rw [hmem]
        rcases Nat.lt_or_ge k f with hlt | hge
        · have hd := chainOk_disjoint s.chain 0 k f bk F hok hk hF hlt
          rw [writeHeader_outside _ _ _ (by left; omega)]
        · have hlt2 : f < k := by omega
          have hd := chainOk_disjoint s.chain 0 f k F bk hok hF hk hlt2
          rw [writeHeader_outside _ _ _ (by right; omega)]
      · intro k bk hk hbkfree
        have hkf : k ≠ f := by
          intro h
          subst h
          rw [hF, Option.some.injEq] at hk
          subst hk
          rw [hFfree] at hbkfree
          exact Bool.noConfusion hbkfree
        refine ⟨k, ?_⟩
        rw [hchain, get?_replace1 _ _ _ hfi k, if_neg hkf]
        exact hk
      · intro e he
        rw [hchain] at he
        obtain ⟨j, hj⟩ := List.get?_of_mem he
        rw [get?_replace1 _ _ _ hfi j] at hj
        by_cases h2 : j = f
        · rw [if_pos h2, Option.some.injEq] at hj
          subst hj
          left
          simp
        · rw [if_neg h2] at hj
          rcases Nat.lt_or_ge j f with h1 | h1
          · have hd := chainOk_disjoint s.chain 0 j f e F hok hj hF h1
            have hB := chainOk_get s.chain 0 j e hok hj
            left
            omega
          · have hfj : f < j := by omega
            have hd := chainOk_disjoint s.chain 0 f j F e hok hF hj hfj
            right
            omega
      · intro k bk hk hbkfree
        have hkf : k ≠ f := by
          intro h
          subst h
          rw [hF, Option.some.injEq] at hk
          subst hk
          rw [hFfree] at hbkfree
          exact Bool.noConfusion hbkfree
        intro hqe
        have : F.addr = bk.addr := by omega
        exact hkf ((chainOk_addr_inj s.chain 0 k f bk F hok hk hF this.symm))
  | none =>
    have hs₁ := pickFit_none s _ s₁ hpick
    subst hs₁
    dsimp only at halloc
    have hhs16 : s.heap_size % ALIGNMENT = 0 := by
      rw [← hsum]
      exact chainSum_align s.chain 0 hok
    by_cases hc1 : HEAP_CAPACITY < (s.heap_size + align (n + headerSize)) % W
    · simp only [allocExtend, set_last_status_heap_size] at halloc
      rw [if_pos hc1] at halloc
      exact absurd (congrArg Prod.fst halloc) (by simp)
    · rw [allocExtend_eq _ _ (by exact hc1) (by exact hhs16)] at halloc
      have hq : q = s.heap_size + headerSize := by
        have h1 := (Prod.ext_iff.mp halloc).1
        simp only [Option.some.injEq, set_last_status_heap_size] at h1
        exact h1.symm
      have hs' : s' = _ := (Prod.ext_iff.mp halloc).2.symm
      have hchain : s'.chain = s.chain ++
          [{ addr := s.heap_size, size := align (n + headerSize), free := false }] := by
        rw [hs']
        rfl
      have hmem : s'.mem = writeHeader
          (match s.chain.getLast? with
           | some t => writeHeader s.mem t.addr
           | none => s.mem) s.heap_size := by
        rw [hs']
        rfl
      subst hq
      refine ⟨?_, ?_, ?_, ?_, ?_⟩
      · rw [hchain]
        exact chainOk_append s.chain 0 _ hok (by simp only; omega) (by simpa using hT32)
          (by simpa using hT3)
      · intro k bk x hk hbkfree hx1 hx2
        obtain ⟨-, -, -, hbkend⟩ := chainOk_get s.chain 0 k bk hok hk
        rw [hmem]
        rw [writeHeader_outside _ _ _ (by left; omega)]
        cases hlast : s.chain.getLast? with
        | none => rfl
        | some t =>
          have ht : t ∈ s.chain := List.mem_of_getLast?_eq_some hlast
          have hd := payload_header_disjoint s.chain 0 k bk t hok hk ht x hx1 hx2
          dsimp only
          rw [writeHeader_outside _ _ _ (by omega)]
      · intro k bk hk hbkfree
        refine ⟨k, ?_⟩
        rw [hchain, List.get?_append (get?_some_lt _ _ _ hk)]
        exact hk
      · intro e he
        rw [hchain] at he
        rcases List.mem_append.mp he with h1 | h1
        · obtain ⟨j, hj⟩ := List.get?_of_mem h1
          obtain ⟨-, hB32, -, hBend⟩ := chainOk_get s.chain 0 j e hok hj
          left
          omega
        · have : e = { addr := s.heap_size, size := align (n + headerSize), free := false } := by
            simpa using h1
          subst this
          left
          simp
      · intro k bk hk hbkfree
        obtain ⟨-, hbk32, -, hbkend⟩ := chainOk_get s.chain 0 k bk hok hk
        omega

theorem heap_free_mem_frame (s : AllocState) (p x : Nat)
    (hx : ∀ e ∈ s.chain, x < e.addr ∨ e.addr + headerSize ≤ x) :
    (heap_free s (some p)).mem x = s.mem x := by
  simp only [heap_free]
  by_cases hv : (validate_pointer s (some p)).1 = false
  · rw [if_pos hv]
    rfl
  · rw [if_neg hv]
    cases hfind : List.findIdx? (fun b => b.addr = p - headerSize) s.chain with
    | none => rfl
    | some idx =>
      dsimp only
      cases hgi : s.chain.get? idx with
      | none => rfl
      | some b =>
        dsimp only
        by_cases hbf : b.free = true
        · rw [if_pos hbf]
          rfl
        · rw [if_neg hbf]
          simp only [set_last_status_mem]
          have hbmem : b ∈ s.chain := List.get?_mem hgi
          rw [writeHeader_outside _ _ _ (by rcases hx b hbmem with h | h <;> omega)]
          cases hlast : (s.chain.take idx).getLast? with
          | none => rfl
          | some prev =>
            have hpmem : prev ∈ s.chain :=
              List.take_subset idx s.chain (List.mem_of_getLast?_eq_some hlast)
            dsimp only
            by_cases hpf : prev.free = true
            · rw [if_pos hpf,
                writeHeader_outside _ _ _ (by rcases hx prev hpmem with h | h <;> omega)]
            · rw [if_neg hpf]

/-- C6 (amended): on a well-formed heap, for the payload pointer `p` of an
allocated chain block `curr` and a request `n` with `0 < n` and
`n + sizeof(header) + 2·ALIGNMENT ≤ 2^64` (without the latter bound the
`size_t` total wraps and the in-place path overwrites the payload prefix —
see the counterexample), every successful `heap_realloc(p, n)` preserves the
first `min(old payload, n)` payload bytes: in place when it returns `p`,
and by copying them to the new payload address when it relocates. -/
theorem c6_realloc_preserves_payload (s : AllocState) (p n i : Nat) (curr : BlockHeader)
    (hWF : WF s = true)
    (hfind : List.findIdx? (fun blk => blk.addr = p - headerSize) s.chain = some i)
    (hget : s.chain.get? i = some curr)
    (haddr : p = curr.addr + headerSize)
    (hfree : curr.free = false)
    (hp : p < s.heap_size)
    (hn : n ≠ 0) (hnW : n + headerSize + 2 * ALIGNMENT ≤ W) :
    ∀ q, (heap_realloc s (some p) n).1 = some q →
      (q = p → ∀ k, k < min (curr.size - headerSize) n →
        (heap_realloc s (some p) n).2.mem (p + k) = s.mem (p + k)) ∧
      (q ≠ p → ∀ k, k < min (curr.size - headerSize) n →
        (heap_realloc s (some p) n).2.mem (q + k) = s.mem (p + k)) := by
  intro q hq
  have h24 : headerSize = 24 := rfl
  have h16 : ALIGNMENT = 16 := rfl
  have hW2 : W = 18446744073709551616 := by norm_num [W]
  have hCAP : HEAP_CAPACITY = 640000 := rfl
  have hWF' := hWF
  simp only [WF, Bool.and_eq_true, decide_eq_true_eq] at hWF'
  obtain ⟨⟨hok, hsum⟩, hcap⟩ := hWF'
  have hmodn : (n + headerSize) % W = n + headerSize := Nat.mod_eq_of_lt (by omega)
  obtain ⟨hT1, hT2, hT3⟩ := align_no_wrap (n + headerSize) (by omega)
  obtain ⟨-, hc32, -, hcend⟩ := chainOk_get s.chain 0 i curr hok hget
  by_cases hA : align ((n + headerSize) % W) ≤ curr.size
  · -- case A: resize in place within the current block
    have hre : heap_realloc s (some p) n =
        (some p, set_last_status
          (reallocMaybeSplit s i curr (align ((n + headerSize) % W))) .ALLOC_SUCCESS) := by
      simp only [heap_realloc]
      rw [if_neg hn, if_neg (by simp [validate_pointer, hp]), hfind]
      dsimp only
      rw [hget]
      dsimp only
      rw [if_pos hA]
    rw [hre] at hq ⊢
    simp only [Option.some.injEq] at hq
    subst hq
    refine ⟨?_, fun hqp => absurd rfl hqp⟩
    intro _ k hk
    simp only [set_last_status_mem, reallocMaybeSplit]
    rw [hmodn]
    by_cases hsp : (align (n + headerSize) + headerSize + ALIGNMENT) % W < curr.size
    · rw [if_pos hsp]
      dsimp only
      rw [writeHeader_outside _ _ _ (by left; omega),
        writeHeader_outside _ _ _ (by right; omega)]
    · rw [if_neg hsp]
  · cases hnxt : s.chain.get? (i + 1) with
    | some nxt =>
      by_cases hB : nxt.free = true ∧
          align ((n + headerSize) % W) ≤ (curr.size + nxt.size + headerSize) % W
      · -- case B: absorb the free successor, then maybe split
        have hre : heap_realloc s (some p) n =
            (some p, set_last_status
              (reallocMaybeSplit
                { s with
                  chain := s.chain.take i ++
                    { addr := curr.addr, size := (curr.size + nxt.size + headerSize) % W,
                      free := curr.free } :: s.chain.drop (i + 2),
                  mem := writeHeader s.mem curr.addr }
                i
                { addr := curr.addr, size := (curr.size + nxt.size + headerSize) % W,
                  free := curr.free }
                (align ((n + headerSize) % W))) .ALLOC_SUCCESS) := by
          simp only [heap_realloc]
          rw [if_neg hn, if_neg (by simp [validate_pointer, hp]), hfind]
          dsimp only
          rw [hget]
          dsimp only
          rw [if_neg hA, hnxt]
          dsimp only
          rw [if_pos hB]
        rw [hre] at hq ⊢
        simp only [Option.some.injEq] at hq
        subst hq
        refine ⟨?_, fun hqp => absurd rfl hqp⟩
        intro _ k hk
        simp only [set_last_status_mem, reallocMaybeSplit]
        rw [hmodn]
        by_cases hsp : (align (n + headerSize) + headerSize + ALIGNMENT) % W
            < (BlockHeader.mk curr.addr ((curr.size + nxt.size + headerSize) % W) curr.free).size
        · rw [if_pos hsp]
          dsimp only
          rw [writeHeader_outside _ _ _ (by left; omega),
            writeHeader_outside _ _ _ (by right; omega),
            writeHeader_outside _ _ _ (by right; omega)]
        · rw [if_neg hsp]
          dsimp only
          rw [writeHeader_outside _ _ _ (by right; omega)]
      · -- case C: allocate, copy, free
        have hreC : heap_realloc s (some p) n = heap_realloc.reallocRelocate s p curr n := by
          simp only [heap_realloc]
          rw [if_neg hn, if_neg (by simp [validate_pointer, hp]), hfind]
          dsimp only
          rw [hget]
          dsimp only
          rw [if_neg hA, hnxt]
          dsimp only
          rw [if_neg hB]
        cases hal : heap_alloc s n with
        | mk o s₁ =>
        cases o with
        | none =>
          rw [hreC] at hq
          simp only [heap_realloc.reallocRelocate] at hq
          rw [hal] at hq
          exact absurd hq (by simp)
        | some np =>
          obtain ⟨hok1, hframe, hpersist, hsep, hqne⟩ := heap_alloc_post s n np s₁ hWF hnW hal
          obtain ⟨k', hk'⟩ := hpersist i curr hget hfree
          have hpc : p - headerSize = curr.addr := by omega
          have hfind1 : List.findIdx? (fun blk => blk.addr = p - headerSize) s₁.chain
              = some k' := by
            rw [hpc]
            exact chainOk_findIdx s₁.chain 0 k' curr hok1 hk'
          have hre : heap_realloc s (some p) n =
              (some np, set_last_status
                (heap_free
                  { s₁ with mem := (memcpy s₁.mem np p
                      (if n < sub64 curr.size headerSize then n
                       else sub64 curr.size headerSize)) }
                  (some p)) .ALLOC_SUCCESS) := by
            rw [hreC]
            simp only [heap_realloc.reallocRelocate]
            rw [hal]
            dsimp only
            rw [hfind1]
            dsimp only
            rw [hk']
          rw [hre] at hq ⊢
          simp only [Option.some.injEq] at hq
          subst hq
          have hqp : np ≠ p := by
            rw [haddr]
            exact hqne i curr hget hfree
          refine ⟨fun h => absurd h hqp, ?_⟩
          intro _ k hk
          have hsub : sub64 curr.size headerSize = curr.size - headerSize :=
            sub64_eq_sub _ _ (by omega) (by omega)
          have hkcsz : k < if n < sub64 curr.size headerSize then n
              else sub64 curr.size headerSize := by
            rw [hsub]
            rcases Nat.lt_or_ge n (curr.size - headerSize) with h | h
            · rw [if_pos (by omega)]
              omega
            · rw [if_neg (by omega)]
              omega
          simp only [set_last_status_mem]
          rw [heap_free_mem_frame _ p (np + k) ?side]
          case side =>
            intro e he
            rcases hsep e he with h | h
            · right
              omega
            · left
              have hkT : k < align (n + headerSize) - headerSize := by omega
              omega
          · show memcpy s₁.mem np p _ (np + k) = s.mem (p + k)
            rw [memcpy_at _ _ _ _ _ hkcsz]
            exact hframe i curr (p + k) hget hfree (by omega) (by omega)
    | none =>
      -- no successor: relocate directly
      have hreC : heap_realloc s (some p) n = heap_realloc.reallocRelocate s p curr n := by
        simp only [heap_realloc]
        rw [if_neg hn, if_neg (by simp [validate_pointer, hp]), hfind]
        dsimp only
        rw [hget]
        dsimp only
        rw [if_neg hA, hnxt]
      cases hal : heap_alloc s n with
      | mk o s₁ =>
      cases o with
      | none =>
        rw [hreC] at hq
        simp only [heap_realloc.reallocRelocate] at hq
        rw [hal] at hq
        exact absurd hq (by simp)
      | some np =>
        obtain ⟨hok1, hframe, hpersist, hsep, hqne⟩ := heap_alloc_post s n np s₁ hWF hnW hal
        obtain ⟨k', hk'⟩ := hpersist i curr hget hfree
        have hpc : p - headerSize = curr.addr := by omega
        have hfind1 : List.findIdx? (fun blk => blk.addr = p - headerSize) s₁.chain
            = some k' := by
          rw [hpc]
          exact chainOk_findIdx s₁.chain 0 k' curr hok1 hk'
        have hre : heap_realloc s (some p) n =
            (some np, set_last_status
              (heap_free
                { s₁ with mem := (memcpy s₁.mem np p
                    (if n < sub64 curr.size headerSize then n
                     else sub64 curr.size headerSize)) }
                (some p)) .ALLOC_SUCCESS) := by
          rw [hreC]
          simp only [heap_realloc.reallocRelocate]
          rw [hal]
          dsimp only
          rw [hfind1]
          dsimp only
          rw [hk']
        rw [hre] at hq ⊢
        simp only [Option.some.injEq] at hq
        subst hq
        have hqp : np ≠ p := by
          rw [haddr]
          exact hqne i curr hget hfree
        refine ⟨fun h => absurd h hqp, ?_⟩
        intro _ k hk
        have hsub : sub64 curr.size headerSize = curr.size - headerSize :=
          sub64_eq_sub _ _ (by omega) (by omega)
        have hkcsz : k < if n < sub64 curr.size headerSize then n
            else sub64 curr.size headerSize := by
          rw [hsub]
          rcases Nat.lt_or_ge n (curr.size - headerSize) with h | h
          · rw [if_pos (by omega)]
            omega
          · rw [if_neg (by omega)]
            omega
        simp only [set_last_status_mem]
        rw [heap_free_mem_frame _ p (np + k) ?side2]
        case side2 =>
          intro e he
          rcases hsep e he with h | h
          · right
            omega
          · left
            have hkT : k < align (n + headerSize) - headerSize := by omega
            omega
        · show memcpy s₁.mem np p _ (np + k) = s.mem (p + k)
          rw [memcpy_at _ _ _ _ _ hkcsz]
          exact hframe i curr (p + k) hget hfree (by omega) (by omega)

/-- Witness for C6: an in-place resize of the allocated block of `sW` to 20
bytes preserves its first payload byte. -/
theorem c6_realloc_preserves_payload_witness :
    (heap_realloc sW (some 24) 20).2.mem 24 = sW.mem 24 := by
  have h := (c6_realloc_preserves_payload sW 24 20 0 ⟨0, 64, false⟩
    (by decide) (by decide) (by decide) (by decide) (by decide) (by decide)
    (by decide) (by decide) 24 (by decide)).1 rfl 0 (by decide)
  simpa using h
